import Mathlib

/-!
Verification of the hearthbreaker replay subsystem (`hearthbreaker/replay.py`).

Shallow embedding conventions:
* A Python string is a `List Char` (`Chars`); card identity is its name
  (the external `card_lookup` resolves a name to the unique card with that
  name, so names are a faithful identity domain).
* Python `int` is `Int`; list indexing that can raise `IndexError`, division
  by zero, failed `int(...)` parses and the `raise` statements of `read`
  are modelled with `Except PErr`.
* The compact wire format is a list of lines (each a `List Char`, without the
  trailing newline).  `read`'s regex `\s*(\w*)\s*\(([^)]*)\)\s*(;.*)?$` is
  embedded as `parseLine`; `write`'s line production is `mkLine`.
-/

abbrev Chars := List Char

/-- Convert a Lean string literal to the character-list representation. -/
def strC (s : String) : Chars := s.data

/-- Python `\w` character class (regex word character). -/
def wordChar (c : Char) : Bool := c.isAlphanum || c = '_'

/-- Python `str.strip`: remove leading and trailing whitespace. -/
def stripChars (cs : Chars) : Chars :=
  ((cs.dropWhile Char.isWhitespace).reverse.dropWhile Char.isWhitespace).reverse

/-- Python `",".join(...)` on the argument pieces. -/
def joinComma : List Chars → Chars
  | [] => []
  | [a] => a
  | a :: rest => a ++ ',' :: joinComma rest

/-- Python `str.split(",")`: always returns at least one piece
(`"".split(",") == [""]`). -/
def splitComma (cs : Chars) : List Chars :=
  cs.foldr
    (fun c acc =>
      if c = ',' then [] :: acc
      else
        match acc with
        | a :: as => (c :: a) :: as
        | [] => [[c]])
    [[]]

/-- A line of the compact format as `write` produces it:
`name(arg0,arg1,...)`. -/
def mkLine (name : Chars) (args : List Chars) : Chars :=
  name ++ '(' :: (joinComma args ++ [')'])

/-- Embedding of `read`'s line regex `\s*(\w*)\s*\(([^)]*)\)\s*(;.*)?$`
(replay.py line 284) followed by the split on `","` and the per-argument
`strip` of line 287.  Returns the directive name and argument list, or
`none` when the regex does not match (in which case `read` raises
`AttributeError` on `None.group`). -/
def parseLine (cs : Chars) : Option (Chars × List Chars) :=
  match ((cs.dropWhile Char.isWhitespace).dropWhile wordChar).dropWhile Char.isWhitespace with
  | '(' :: rest =>
    match rest.dropWhile (fun c => c ≠ ')') with
    | _ :: tail =>
      match tail.dropWhile Char.isWhitespace with
      | [] => some ((cs.dropWhile Char.isWhitespace).takeWhile wordChar,
          (splitComma (rest.takeWhile (fun c => c ≠ ')'))).map stripChars)
      | ';' :: _ => some ((cs.dropWhile Char.isWhitespace).takeWhile wordChar,
          (splitComma (rest.takeWhile (fun c => c ≠ ')'))).map stripChars)
      | _ => none
    | [] => none
  | _ => none

/-- Digit characters written by `str(n)`: fuel-driven so that the kernel can
evaluate it (`natToCharsAux (n+1) n` always has enough fuel). -/
def natToCharsAux : Nat → Nat → Chars
  | 0, _ => []
  | fuel + 1, n => if n = 0 then [] else natToCharsAux fuel (n / 10) ++ [Nat.digitChar (n % 10)]

/-- Python `str(n)` for a natural number. -/
def natToChars (n : Nat) : Chars :=
  if n = 0 then ['0'] else natToCharsAux (n + 1) n

/-- Numeric value of a digit character. -/
def digitVal (c : Char) : Nat := c.toNat - 48

/-- Python `str.isdigit` (ASCII digits). -/
def isdigitChars (cs : Chars) : Bool := !cs.isEmpty && cs.all Char.isDigit

/-- Value of an all-digit character list. -/
def digitsVal (cs : Chars) : Nat := cs.foldl (fun a c => a * 10 + digitVal c) 0

/-- Python `int(s)` on a non-negative decimal string, `none` on failure. -/
def charsToNat? (cs : Chars) : Option Nat :=
  if isdigitChars cs then some (digitsVal cs) else none

/-- Python `str(i)` for an integer. -/
def intToChars (i : Int) : Chars :=
  if i < 0 then '-' :: natToChars i.natAbs else natToChars i.natAbs

/-- Python `int(s)` for an optionally `-`-signed decimal string, `none` where
Python raises `ValueError`. -/
def charsToInt? (cs : Chars) : Option Int :=
  if cs.headD 'x' = '-' then (charsToNat? cs.tail).map (fun n => -(n : Int))
  else (charsToNat? cs).map (fun n => (n : Int))

/-- An argument string that survives the wire untouched: no `)` or `,`
(which would change how the line splits) and no whitespace at either end
(which the per-argument `strip` would remove). -/
def cleanArg (s : Chars) : Bool :=
  s.all (fun c => c ≠ ')' && c ≠ ',') &&
    !(s.headD 'x').isWhitespace && !(s.getLastD 'x').isWhitespace

/-- A directive name acceptable to the regex: nonempty word characters. -/
def wfNameB (name : Chars) : Bool :=
  !name.isEmpty && name.all (fun c => wordChar c && !c.isWhitespace)

/-! ## Data model -/

/-- Modelled from the spec: `CHARACTER_CLASS.to_str` / `from_str`
(hearthbreaker/constants.py is not under src/) form an exact bijection
between class constants and their names, so a class is modelled by its
name string and both maps are the identity. -/
def CHARACTER_CLASS_to_str (c : Chars) : Chars := c

/-- Modelled from the spec: see `CHARACTER_CLASS_to_str`. -/
def CHARACTER_CLASS_from_str (c : Chars) : Chars := c

/-- Modelled from the spec: the external `lookupCardByName` of §6 resolves a
name to the card with that identity; with card identity embedded as the
name itself it is the identity map. -/
def card_lookup (name : Chars) : Chars := name

/-- A deck: an ordered card list (30 entries for valid decks) plus a
character class, as in `hearthbreaker.game_objects.Deck`. -/
structure Deck where
  cards : List Chars
  character_class : Chars
deriving DecidableEq

/-- A recorded random draw (`RandomDraw` of the spec): either the plain
integer result of a bounded draw, or a character reference produced by a
random-target selection (`ProxyCharacter`, modelled by its reference
string). -/
inductive RDraw where
  | num (n : Int)
  | char (s : Chars)
deriving DecidableEq

/-- The move variants of `hearthbreaker.serialization.move`, with card and
character references in the name/reference-string domain.  `play`'s board
index is `none` by default (spec §3: `boardIndex: optional int`). -/
inductive MoveKind where
  | play (card : Chars) (index : Option Int) (target : Option Chars)
  | attack (attacker : Chars) (target : Chars)
  | power (target : Option Chars)
  | turnEnd
  | turnStart
  | concede
deriving DecidableEq

/-- A move together with its consumed random draws (`move.random_numbers`). -/
structure MoveRec where
  kind : MoveKind
  random_numbers : List RDraw
deriving DecidableEq

/-- The `Replay` aggregate (replay.py lines 58-62). -/
structure Replay where
  _moves : List MoveRec
  decks : List Deck
  keeps : List (List Int)
  random : List RDraw
deriving DecidableEq

/-- A fresh `Replay()` before any recording or reading. -/
def emptyReplay : Replay := ⟨[], [], [], []⟩

/-- The default keep substitution of `read`/`read_json`. -/
def defaultKeeps : List (List Int) := [[0, 1, 2], [0, 1, 2, 3]]

/-- Errors raised by the embedded Python code. -/
inductive PErr where
  | attributeError
  | valueError
  | indexError
  | zeroDivisionError
  | maxDecks
  | maxKeeps
deriving DecidableEq

/-! ## Deck codec -/

/-- The pattern test of `Replay.__shorten_deck` at one length:
`isinstance(cards[index % pattern_length], type(cards[index]))` for every
`index` in `range(pattern_length, 30)` — identity comparison in the name
domain. -/
def deckMatches (cards : List Chars) (k : Nat) : Bool :=
  (List.range' k (30 - k)).all (fun i => cards.getD (i % k) [] = cards.getD i [])

/-- `Replay.__shorten_deck` (replay.py lines 137-151): tries pattern lengths
`range(1, 15)` in order and returns the prefix at the first match; when no
length in 1..14 matches, the Python function falls off the loop and
returns `None`. -/
def shorten_deck (cards : List Chars) : Option (List Chars) :=
  ((List.range' 1 14).find? (deckMatches cards)).map (fun k => cards.take k)

/-- Pattern expansion as performed by `read`/`read_json`:
`cards[i] = lookup(pattern[i % len(pattern)])` for `i` in `range(0, 30)`. -/
def expandPattern (pat : List Chars) : List Chars :=
  (List.range 30).map (fun i => card_lookup (pat.getD (i % pat.length) []))

/-! ## Compact-format writing (`Replay.write`, lines 153-204) -/

/-- Serialization of one random draw: Python `str(num)` for integers; for a
`ProxyCharacter` the reference string itself (modelled from the spec:
hearthbreaker/proxies.py is not under src/; §3 serializes a
CharacterReference by its board-position reference). -/
def drawToChars : RDraw → Chars
  | .num n => intToChars n
  | .char s => s

/-- Argument list produced by `",".join(xs)` once re-split: the empty join
and the empty string are both a single empty argument. -/
def argsOfList (xs : List Chars) : List Chars :=
  if xs.isEmpty then [[]] else xs

/-- The `found_random` scan of `write` (lines 177-184): false exactly when
the pre-game list counts only zeros and every move's draw list counts only
zeros. -/
def foundRandom (r : Replay) : Bool :=
  if r.random.count (RDraw.num 0) = r.random.length then
    r._moves.any (fun m => ¬(m.random_numbers.count (RDraw.num 0) = m.random_numbers.length))
  else
    true

/-- The single pre-game `random(...)` line of `write` (lines 185-190). -/
def randomHeaderLine (r : Replay) : Chars :=
  if foundRandom r then
    mkLine (strC "random") (argsOfList (r.random.map drawToChars))
  else
    mkLine (strC "random") [[]]

/-- Modelled from the spec: `Move.to_output_string`
(hearthbreaker/serialization/move.py is not under src/).  Each variant
writes the compact directive that `read` (lines 288-317) parses back:
`play`/`summon` for a play without/with a board index, then `attack`,
`power`, `end`, `start`, `concede`. -/
def to_output_string : MoveKind → Chars
  | .play card none none => mkLine (strC "play") [card]
  | .play card none (some t) => mkLine (strC "play") [card, t]
  | .play card (some i) none => mkLine (strC "summon") [card, intToChars i]
  | .play card (some i) (some t) => mkLine (strC "summon") [card, intToChars i, t]
  | .attack a t => mkLine (strC "attack") [a, t]
  | .power none => mkLine (strC "power") [[]]
  | .power (some t) => mkLine (strC "power") [t]
  | .turnEnd => mkLine (strC "end") [[]]
  | .turnStart => mkLine (strC "start") [[]]
  | .concede => mkLine (strC "concede") [[]]

/-- A deck directive line of `write` (lines 171-176), `none` when
`__shorten_deck` returns `None` (in which case the Python `write` raises
`TypeError` iterating it). -/
def deckLine (d : Deck) : Option Chars :=
  (shorten_deck d.cards).map
    (fun pat => mkLine (strC "deck") (CHARACTER_CLASS_to_str d.character_class :: pat))

/-- A `keep(...)` line of `write` (lines 192-195). -/
def keepLine (k : List Int) : Chars :=
  mkLine (strC "keep") (argsOfList (k.map intToChars))

/-- The line(s) of one move (lines 197-202): its directive, then a
`random(...)` line when it consumed draws. -/
def moveLines (m : MoveRec) : List Chars :=
  to_output_string m.kind ::
    (if m.random_numbers.length > 0 then
      [mkLine (strC "random") (argsOfList (m.random_numbers.map drawToChars))]
    else [])

/-- `Replay.write` (lines 153-204) as the list of produced lines: deck
directives, the pre-game random line, keep lines, then each move with its
draws.  `none` models the `TypeError` raised when a deck has no repeating
pattern of length at most 14. -/
def writeCompact (r : Replay) : Option (List Chars) := do
  let deckLs ← r.decks.mapM deckLine
  pure (deckLs ++ randomHeaderLine r :: (r.keeps.map keepLine ++ (r._moves.map moveLines).flatten))

/-! ## Compact-format reading (`Replay.read`, lines 269-349) -/

/-- Mutation of the last list element, as Python's
`self._moves[-1].random_numbers.append(...)` (a no-op on the empty list
never happens in the source: every call site guards on nonemptiness). -/
def updateLast (f : MoveRec → MoveRec) : List MoveRec → List MoveRec
  | [] => []
  | [m] => [f m]
  | m :: rest => m :: updateLast f rest

/-- One random argument of a post-move `random(...)` line (lines 325-329):
digits parse to an integer, anything else becomes a `ProxyCharacter` of the
raw string. -/
def parseMoveDraw (a : Chars) : RDraw :=
  if isdigitChars a then RDraw.num (digitsVal a : Int) else RDraw.char a

/-- One directive of `Replay.read` (lines 286-345), dispatching on the
directive name exactly as the `elif` chain does; unmatched names are
silently skipped (the chain has no `else`).  Guarded Python subscripts
(`args[0]`, `args[1]`, `len(args) > 1`, ...) are rendered as list
patterns; the deck branch's
`args[1 + index % deck_size] for index in range(0, 30)` with
`deck_size = len(args) - 1` is exactly `expandPattern rest` for
`args = cl :: rest`.  Python appends pre-game random numbers one at a
time, so a failing `int(...)` leaves earlier appends behind before the
exception propagates; since the exception escapes `read`, the
all-or-nothing `mapM` is observationally the same. -/
def readDirective (r : Replay) (mv : Chars) (args : List Chars) : Except PErr Replay :=
  if mv = strC "play" then
    match args with
    | [] => .error .indexError
    | [card] => .ok { r with _moves := r._moves ++ [⟨.play card none none, []⟩] }
    | card :: target :: _ =>
      .ok { r with _moves := r._moves ++ [⟨.play card none (some target), []⟩] }
  else if mv = strC "summon" then
    match args with
    | card :: a1 :: rest =>
      match charsToInt? a1 with
      | none => .error .valueError
      | some i =>
        match rest with
        | [] => .ok { r with _moves := r._moves ++ [⟨.play card (some i) none, []⟩] }
        | target :: _ =>
          .ok { r with _moves := r._moves ++ [⟨.play card (some i) (some target), []⟩] }
    | _ => .error .indexError
  else if mv = strC "attack" then
    match args with
    | a :: t :: _ => .ok { r with _moves := r._moves ++ [⟨.attack a t, []⟩] }
    | _ => .error .indexError
  else if mv = strC "power" then
    match args with
    | [] => .ok { r with _moves := r._moves ++ [⟨.power none, []⟩] }
    | a :: _ =>
      if a = [] then .ok { r with _moves := r._moves ++ [⟨.power none, []⟩] }
      else .ok { r with _moves := r._moves ++ [⟨.power (some a), []⟩] }
  else if mv = strC "end" then
    .ok { r with _moves := r._moves ++ [⟨.turnEnd, []⟩] }
  else if mv = strC "start" then
    .ok { r with _moves := r._moves ++ [⟨.turnStart, []⟩] }
  else if mv = strC "random" then
    if r._moves.length = 0 then
      if (args.headD []).length > 0 then
        match args.mapM charsToInt? with
        | none => .error .valueError
        | some nums => .ok { r with random := r.random ++ nums.map RDraw.num }
      else .ok r
    else
      .ok { r with
        _moves := updateLast
          (fun m => { m with random_numbers := m.random_numbers ++ args.map parseMoveDraw })
          r._moves }
  else if mv = strC "deck" then
    if r.decks.length > 1 then .error .maxDecks
    else
      match args with
      | [] => .error .indexError
      | cl :: rest =>
        if rest.length = 0 then .error .zeroDivisionError
        else .ok { r with decks := r.decks ++ [⟨expandPattern rest, CHARACTER_CLASS_from_str cl⟩] }
  else if mv = strC "keep" then
    if r.keeps.length > 1 then .error .maxKeeps
    else
      match args.mapM charsToInt? with
      | none => .error .valueError
      | some ks => .ok { r with keeps := r.keeps ++ [ks] }
  else if mv = strC "concede" then
    .ok { r with _moves := r._moves ++ [⟨.concede, []⟩] }
  else .ok r

/-- One line of `Replay.read`: regex match (an unmatched line raises
`AttributeError` on `None.group`), then directive dispatch. -/
def readStep (r : Replay) (line : Chars) : Except PErr Replay :=
  match parseLine line with
  | none => .error .attributeError
  | some (mv, args) => readDirective r mv args

/-- The line loop of `read` (line 285): processes directives in order,
stopping at the first raised exception. -/
def readAux : List Chars → Replay → Except PErr Replay
  | [], r => .ok r
  | l :: rest, r =>
    match readStep r l with
    | .ok r' => readAux rest r'
    | .error e => .error e

/-- `Replay.read` on a fresh `Replay()`: the directive loop followed by the
default keep substitution of lines 348-349. -/
def readLines (lines : List Chars) : Except PErr Replay :=
  (readAux lines emptyReplay).map
    (fun r => if r.keeps.length = 0 then { r with keeps := defaultKeeps } else r)

/-! ## Structured (json) format (`write_json` lines 206-235, `read_json`
lines 237-267).  The per-move `__to_json__`/`Move.from_json` pair lives in
hearthbreaker/serialization/move.py, which is not under src/; modelled from
the spec (§4.2: every variant defines its own serialize/deserialize
mapping), a serialized move record is identified with the move itself. -/

/-- One `header.decks` entry of the structured document. -/
structure JsonDeck where
  cards : List Chars
  cclass : Chars
deriving DecidableEq

/-- The structured document: header (decks, keep, random) plus moves. -/
structure JsonDoc where
  decks : List JsonDeck
  keep : List (List Int)
  random : List RDraw
  moves : List MoveRec
deriving DecidableEq

/-- `Replay.write_json`: decks are pattern-compressed (`none` models the
`TypeError` on an incompressible deck), keeps and the random list are
dumped as they are. -/
def writeJson (r : Replay) : Option JsonDoc := do
  let ds ← r.decks.mapM (fun d =>
    (shorten_deck d.cards).map
      (fun pat => JsonDeck.mk pat (CHARACTER_CLASS_to_str d.character_class)))
  pure ⟨ds, r.keeps, r.random, r._moves⟩

/-- `Replay.read_json`: expands each deck pattern to 30 cards
(`ZeroDivisionError` on an empty card list), takes `random` and `keep`
verbatim, and substitutes the default keeps when the keep list is empty. -/
def readJson (doc : JsonDoc) : Except PErr Replay := do
  let decks ← doc.decks.mapM (fun d =>
    if d.cards.length = 0 then Except.error PErr.zeroDivisionError
    else Except.ok (Deck.mk (expandPattern d.cards) (CHARACTER_CLASS_from_str d.cclass)))
  Except.ok ⟨doc.moves, decks, if doc.keep.length = 0 then defaultKeeps else doc.keep, doc.random⟩

/-! ## Recorder (`record`, lines 352-441) -/

/-- `Replay._record_random` (lines 75-85): append the draw to the last
move's `random_numbers` when a move exists, else to the pre-game list. -/
def recordRandom (r : Replay) (result : RDraw) : Replay :=
  if r._moves.length > 0 then
    { r with
        _moves := updateLast
          (fun m => { m with random_numbers := m.random_numbers ++ [result] }) r._moves }
  else
    { r with random := r.random ++ [result] }

/-- The `_generate_random_between` wrapper installed by `record`
(lines 423-426): call the original generator, record its result, return
it.  The original generator is an oracle parameter. -/
def record_generate_random_between (rng : Int → Int → Int) (lowest highest : Int)
    (r : Replay) : Int × Replay :=
  let result := rng lowest highest
  (result, recordRandom r (.num result))

/-- A Python value as far as `choose_option` is concerned: an opaque option
atom or a tuple of values (the varargs tuple is itself a value). -/
inductive PyVal where
  | atom (n : Nat)
  | tup (xs : List PyVal)

mutual

/-- Python `==` on `choose_option` values (structural, as for tuples and
ints). -/
def pyBeq : PyVal → PyVal → Bool
  | .atom n, .atom m => n == m
  | .tup xs, .tup ys => pyBeqList xs ys
  | .atom _, .tup _ => false
  | .tup _, .atom _ => false

/-- Pointwise `pyBeq` on tuples. -/
def pyBeqList : List PyVal → List PyVal → Bool
  | [], [] => true
  | x :: xs, y :: ys => pyBeq x y && pyBeqList xs ys
  | _ :: _, [] => false
  | [], _ :: _ => false

end

/-- Python `tuple.index`: position of the first element equal to `x`,
`ValueError` (here `none`) when absent. -/
def pyIndex (l : List PyVal) (x : PyVal) : Option Nat :=
  l.findIdx? (fun y => pyBeq y x)

/-- `Replay._record_option_chosen` (lines 94-98): the body reads
`self.moves[-1]`, but `Replay.__init__` defines only `_moves` and nothing
ever assigns a `moves` attribute, so the access raises `AttributeError`. -/
def record_option_chosen (_r : Replay) (_option : Nat) : Except PErr Replay :=
  .error .attributeError

/-- `RecordingAgent.choose_option` (lines 381-384).  The wrapper receives
the varargs tuple `options`; line 382 calls `self.agent.choose_option(options)`,
passing that tuple as ONE positional argument, so the wrapped agent's own
varargs tuple is `[tup options]`.  Line 384 then computes
`options.index(option)` (`ValueError` when the answer is not one of the
original options) and hands it to `record_option_chosen`. -/
def RecordingAgent_choose_option (underlying : List PyVal → PyVal) (r : Replay)
    (options : List PyVal) : Except PErr (Replay × PyVal) :=
  let option := underlying [PyVal.tup options]
  match pyIndex options option with
  | none => .error .valueError
  | some i =>
    match record_option_chosen r i with
    | .error e => .error e
    | .ok r' => .ok (r', option)

/-! ## Playback (`playback`, lines 444-540) -/

/-- The two nonlocal cursors used by the playback closures
(`move_index` starts at `-1`, `random_index` at `0`). -/
structure PlaybackState where
  move_index : Int
  random_index : Int
deriving DecidableEq

/-- Python list subscripting with an `Int` index (negative indices count
from the end; out of range raises `IndexError`, here `none`). -/
def pyGet (l : List α) (i : Int) : Option α :=
  if 0 ≤ i then l[i.toNat]?
  else if i.natAbs ≤ l.length then l[l.length - i.natAbs]?
  else none

set_option linter.unusedVariables false in
/-- The `_generate_random_between` override installed by `playback`
(lines 498-506): with an empty pre-game list it returns `0` without
touching the cursor; otherwise it advances `random_index` and reads the
pre-game list (before the first move) or the current move's draws. -/
def playback_generate_random_between (replay : Replay) (st : PlaybackState)
    (lowest highest : Int) : Except PErr (RDraw × PlaybackState) :=
  if replay.random.length = 0 then .ok (.num 0, st)
  else
    let ri := st.random_index + 1
    if st.move_index = -1 then
      match pyGet replay.random (ri - 1) with
      | some d => .ok (d, { st with random_index := ri })
      | none => .error .indexError
    else
      match pyGet replay._moves st.move_index with
      | none => .error .indexError
      | some m =>
        match pyGet m.random_numbers (ri - 1) with
        | some d => .ok (d, { st with random_index := ri })
        | none => .error .indexError

/-! ## Well-formedness of a recorded replay (used by the round-trip
theorem): the string fields survive the compact wire untouched and the
deck admits a pattern of length at most 14 (without which `write`
raises, see the C2/C3 results). -/

/-- A deck the compact writer can emit and the reader reproduces. -/
def wfDeckB (d : Deck) : Bool :=
  d.cards.length = 30 && (shorten_deck d.cards).isSome &&
    d.cards.all cleanArg && cleanArg d.character_class

/-- Pre-game draws are plain integers (recording appends only
`_generate_random_between` results before the first move). -/
def isNumDraw : RDraw → Bool
  | .num _ => true
  | .char _ => false

/-- A per-move draw that round-trips: a non-negative integer (written in
digits, read back through `isdigit`), or a reference string that is clean
and not all digits. -/
def wfMoveDrawB : RDraw → Bool
  | .num n => decide (0 ≤ n)
  | .char s => cleanArg s && !isdigitChars s

/-- Clean string fields per move variant; a `power` target must be nonempty
(`read` maps `power()` to a target-less power move). -/
def wfKindB : MoveKind → Bool
  | .play card _ t => cleanArg card && t.all cleanArg
  | .attack a t => cleanArg a && cleanArg t
  | .power t => t.all (fun s => cleanArg s && !s.isEmpty)
  | .turnEnd => true
  | .turnStart => true
  | .concede => true

/-- A move whose directive line round-trips. -/
def wfMoveB (m : MoveRec) : Bool :=
  wfKindB m.kind && m.random_numbers.all wfMoveDrawB

/-- A replay as produced by recording a session to completion, restricted
to what the compact wire can carry: at most two decks and keeps (a third
is a read error), nonempty keep lists, integer pre-game draws,
well-formed moves, and pattern-compressible decks. -/
def wellRecordedB (r : Replay) : Bool :=
  r.decks.length ≤ 2 && r.decks.all wfDeckB &&
    r.keeps.length ≤ 2 && r.keeps.all (fun k => !k.isEmpty) &&
    r.random.all isNumDraw &&
    r._moves.all wfMoveB

/-! ## Auxiliary observers and concrete inputs used by the claims -/

/-- The keep list a `keep(...)` directive line contributes, if any. -/
def keepDir (line : Chars) : Option (List Int) :=
  match parseLine line with
  | some (mv, args) => if mv = strC "keep" then args.mapM charsToInt? else none
  | none => none

/-- All keep lists contributed by a compact source, in order. -/
def keepDirs (lines : List Chars) : List (List Int) :=
  lines.filterMap keepDir

/-- The integer values of a list of numeric draws (defaulting character
draws to zero; used only under an all-numeric hypothesis). -/
def numsOf (l : List RDraw) : List Int :=
  l.map (fun d => match d with | .num n => n | .char _ => 0)

/-- The all-zero-draws condition of the spec's `random()` omission rule. -/
def allDrawsZero (r : Replay) : Prop :=
  (∀ d ∈ r.random, d = RDraw.num 0) ∧
    ∀ m ∈ r._moves, ∀ d ∈ m.random_numbers, d = RDraw.num 0

/-- A 30-card deck with no repeating pattern of length at most 14
(positions 28 and 29 break every candidate): 28 copies of A then B, C. -/
def aperiodicDeck1 : List Chars := List.replicate 28 (strC "A") ++ [strC "B", strC "C"]

/-- Another pattern-free 30-card deck: 29 copies of A then one B. -/
def aperiodicDeck2 : List Chars := List.replicate 29 (strC "A") ++ [strC "B"]

/-- The compact scenario input of spec §8 (claim C4), line by line. -/
def c4Input : List Chars :=
  [strC "deck(MAGE,Fireball)", strC "random(0)", strC "keep(0,1,2)",
    strC "keep(0,1,2,3)", strC "play(Fireball,0,2)", strC "end()"]

/-- What `read` actually produces from `c4Input`. -/
def c4Result : Replay :=
  ⟨[⟨.play (strC "Fireball") none (some (strC "0")), []⟩, ⟨.turnEnd, []⟩],
    [⟨List.replicate 30 (strC "Fireball"), strC "MAGE"⟩],
    [[0, 1, 2], [0, 1, 2, 3]],
    [.num 0]⟩

/-- The move list claim C4 asserts for that input: a `PlayMove` with board
index `0` and target `2`. -/
def c4ClaimedMoves : List MoveRec :=
  [⟨.play (strC "Fireball") (some 0) (some (strC "2")), []⟩, ⟨.turnEnd, []⟩]

/-- A replay recorded to completion in which every draw was zero: the
pre-game coin flip `0` and one turn-end move with no draws. -/
def allZeroReplay : Replay :=
  ⟨[⟨.turnEnd, []⟩],
    [⟨List.replicate 30 (strC "A"), strC "MAGE"⟩, ⟨List.replicate 30 (strC "B"), strC "MAGE"⟩],
    [[0, 1, 2], [0, 1, 2, 3]],
    [.num 0]⟩

/-- A completed recording in which player one kept zero cards at the
mulligan (`_record_kept_index` appends `[]` when every entry of the
boolean vector is False): wire-clean names, a compressible deck, a
nonzero pre-game draw — yet `write` emits `keep()` for the empty
selection and `read` then raises `ValueError` on `int('')`. -/
def emptyKeepReplay : Replay :=
  ⟨[⟨.turnEnd, []⟩],
    [⟨List.replicate 30 (strC "A"), strC "MAGE"⟩],
    [[], [0, 1, 2, 3]],
    [.num 1]⟩

/-- A well-recorded replay exercising every move variant, character draws
and a nonzero pre-game draw. -/
def sampleReplay : Replay :=
  ⟨[⟨.turnStart, [.num 3, .char (strC "p1:2")]⟩,
      ⟨.play (strC "Fireball") none (some (strC "h0")), []⟩,
      ⟨.play (strC "Wisp") (some 2) (some (strC "t1")), [.num 0]⟩,
      ⟨.attack (strC "a1") (strC "a2"), []⟩,
      ⟨.power (some (strC "pw")), []⟩,
      ⟨.power none, []⟩,
      ⟨.concede, []⟩,
      ⟨.turnEnd, []⟩],
    [⟨List.replicate 30 (strC "A"), strC "MAGE"⟩],
    [[0, 1, 2], [0, 1, 2, 3]],
    [.num 1, .num 0]⟩

/-- A valid compact deck directive line (used for cardinality tests). -/
def deckDirective : Chars := strC "deck(MAGE,Fireball)"

/-- A valid compact keep directive line (used for cardinality tests). -/
def keepDirective : Chars := strC "keep(0)"

/-! ## Decimal codec lemmas -/

/-- Reading back the digit character of a digit value. -/
theorem digitVal_digitChar {d : Nat} (h : d < 10) : digitVal (Nat.digitChar d) = d := by
  interval_cases d <;> decide

/-- Digit characters of digit values are `isdigit`. -/
theorem digitChar_isDigit {d : Nat} (h : d < 10) : (Nat.digitChar d).isDigit = true := by
  interval_cases d <;> decide

/-- Every character `natToCharsAux` emits is a digit. -/
theorem natToCharsAux_all_digits :
    ∀ fuel n, ∀ c ∈ natToCharsAux fuel n, c.isDigit = true := by
  intro fuel
  induction fuel with
  | zero => intro n c hc; simp [natToCharsAux] at hc
  | succ f ih =>
    intro n c hc
    by_cases h0 : n = 0
    · simp [natToCharsAux, h0] at hc
    · rw [natToCharsAux, if_neg h0] at hc
      rcases List.mem_append.mp hc with hc | hc
      · exact ih _ c hc
      · rw [List.mem_singleton.mp hc]
        exact digitChar_isDigit (Nat.mod_lt _ (by norm_num))

/-- Appending a digit multiplies the accumulated value by ten. -/
theorem digitsVal_append (xs : Chars) (c : Char) :
    digitsVal (xs ++ [c]) = digitsVal xs * 10 + digitVal c := by
  simp [digitsVal, List.foldl_append]

/-- With enough fuel, `natToCharsAux` writes the decimal digits of `n`. -/
theorem natToCharsAux_val : ∀ fuel n, n ≤ fuel → digitsVal (natToCharsAux fuel n) = n := by
  intro fuel
  induction fuel with
  | zero =>
    intro n h
    interval_cases n
    simp [natToCharsAux, digitsVal]
  | succ f ih =>
    intro n h
    by_cases h0 : n = 0
    · simp [natToCharsAux, h0, digitsVal]
    · have hdiv : n / 10 < n := Nat.div_lt_self (Nat.pos_of_ne_zero h0) (by norm_num)
      rw [natToCharsAux, if_neg h0, digitsVal_append, ih (n / 10) (by omega),
        digitVal_digitChar (Nat.mod_lt _ (by norm_num))]
      omega

/-- The decimal form of a natural number is never empty. -/
theorem natToChars_ne_nil (n : Nat) : natToChars n ≠ [] := by
  unfold natToChars
  split
  · simp
  · rename_i h0
    rw [natToCharsAux, if_neg h0]
    simp

/-- Every character of `natToChars n` is a digit. -/
theorem natToChars_all_digits (n : Nat) : ∀ c ∈ natToChars n, c.isDigit = true := by
  unfold natToChars
  split
  · intro c hc
    rw [List.mem_singleton.mp hc]
    decide
  · exact natToCharsAux_all_digits _ _

/-- `str(n)` passes Python's `isdigit` test. -/
theorem isdigit_natToChars (n : Nat) : isdigitChars (natToChars n) = true := by
  unfold isdigitChars
  rw [Bool.and_eq_true, List.all_eq_true]
  refine ⟨?_, natToChars_all_digits n⟩
  cases h : natToChars n with
  | nil => exact absurd h (natToChars_ne_nil n)
  | cons c l => simp

/-- The digit fold inverts `natToChars`. -/
theorem digitsVal_natToChars (n : Nat) : digitsVal (natToChars n) = n := by
  unfold natToChars
  split
  · rename_i h0
    rw [h0]
    decide
  · exact natToCharsAux_val _ _ (Nat.le_succ n)

/-- Round trip: `int(str(n)) == n` for naturals. -/
theorem charsToNat?_natToChars (n : Nat) : charsToNat? (natToChars n) = some n := by
  simp [charsToNat?, isdigit_natToChars, digitsVal_natToChars]

/-- Round trip: `int(str(i)) == i` for integers. -/
theorem charsToInt?_intToChars (i : Int) : charsToInt? (intToChars i) = some i := by
  unfold intToChars
  split
  · rename_i h
    show charsToInt? ('-' :: natToChars i.natAbs) = some i
    unfold charsToInt?
    simp only [List.headD_cons, List.tail_cons, if_true]
    rw [charsToNat?_natToChars]
    show some (-(i.natAbs : Int)) = some i
    rw [Option.some.injEq]
    omega
  · rename_i h
    cases hc : natToChars i.natAbs with
    | nil => exact absurd hc (natToChars_ne_nil _)
    | cons c rest =>
      have hcd : c.isDigit = true := natToChars_all_digits _ c (by rw [hc]; exact List.mem_cons_self c rest)
      have hne : c ≠ '-' := by
        intro he
        rw [he] at hcd
        exact absurd hcd (by decide)
      unfold charsToInt?
      simp only [List.headD_cons]
      rw [if_neg hne, ← hc, charsToNat?_natToChars]
      show some ((i.natAbs : Int)) = some i
      rw [Option.some.injEq]
      omega

/-! ## Wire codec lemmas: a written line parses back to its directive -/

/-- `takeWhile` passes over a satisfying prefix. -/
theorem takeWhile_append_of_all {p : Char → Bool} {xs ys : Chars}
    (h : ∀ c ∈ xs, p c = true) : (xs ++ ys).takeWhile p = xs ++ ys.takeWhile p := by
  induction xs with
  | nil => simp
  | cons a l ih =>
    rw [List.cons_append, List.takeWhile_cons, if_pos (h a (List.mem_cons_self a l)),
      ih (fun c hc => h c (List.mem_cons_of_mem _ hc)), List.cons_append]

/-- `dropWhile` consumes a satisfying prefix. -/
theorem dropWhile_append_of_all {p : Char → Bool} {xs ys : Chars}
    (h : ∀ c ∈ xs, p c = true) : (xs ++ ys).dropWhile p = ys.dropWhile p := by
  induction xs with
  | nil => simp
  | cons a l ih =>
    rw [List.cons_append, List.dropWhile_cons, if_pos (h a (List.mem_cons_self a l)),
      ih (fun c hc => h c (List.mem_cons_of_mem _ hc))]

/-- Unfolding `splitComma` one character at a time. -/
theorem splitComma_cons (c : Char) (rest : Chars) :
    splitComma (c :: rest) =
      if c = ',' then [] :: splitComma rest
      else
        match splitComma rest with
        | a :: as => (c :: a) :: as
        | [] => [[c]] := rfl

/-- `split` always returns at least one piece. -/
theorem splitComma_ne_nil (cs : Chars) : splitComma cs ≠ [] := by
  induction cs with
  | nil => simp [splitComma]
  | cons c rest ih =>
    rw [splitComma_cons]
    split
    · simp
    · cases h : splitComma rest with
      | nil => exact absurd h ih
      | cons a as => simp

/-- A comma-free string splits into itself. -/
theorem splitComma_no_comma {a : Chars} (h : ∀ c ∈ a, c ≠ ',') : splitComma a = [a] := by
  induction a with
  | nil => rfl
  | cons c rest ih =>
    rw [splitComma_cons, if_neg (h c (List.mem_cons_self c rest)),
      ih (fun x hx => h x (List.mem_cons_of_mem _ hx))]

/-- A comma-free prefix joins onto the first piece of the remainder. -/
theorem splitComma_append {a t : Chars} (h : ∀ c ∈ a, c ≠ ',') :
    splitComma (a ++ t) = (a ++ (splitComma t).headD []) :: (splitComma t).tail := by
  induction a with
  | nil =>
    cases ht : splitComma t with
    | nil => exact absurd ht (splitComma_ne_nil t)
    | cons x xs => simp [ht]
  | cons c a' ih =>
    rw [List.cons_append, splitComma_cons, if_neg (h c (List.mem_cons_self c a')),
      ih (fun x hx => h x (List.mem_cons_of_mem _ hx))]
    rfl

/-- `split` inverts `join` on nonempty lists of comma-free pieces. -/
theorem splitComma_joinComma :
    ∀ args : List Chars, args ≠ [] → (∀ a ∈ args, ∀ c ∈ a, c ≠ ',') →
      splitComma (joinComma args) = args := by
  intro args
  induction args with
  | nil => intro h; exact absurd rfl h
  | cons a rest ih =>
    intro _ hcl
    cases rest with
    | nil => exact splitComma_no_comma (hcl a (List.mem_cons_self a []))
    | cons b rest' =>
      show splitComma (a ++ ',' :: joinComma (b :: rest')) = a :: b :: rest'
      rw [splitComma_append (hcl a (List.mem_cons_self a _)), splitComma_cons, if_pos rfl]
      rw [ih (by simp) (fun x hx => hcl x (List.mem_cons_of_mem _ hx))]
      simp

/-- Every character of a join is a comma or a character of a piece. -/
theorem mem_joinComma {P : Char → Prop} :
    ∀ {args : List Chars}, (∀ a ∈ args, ∀ c ∈ a, P c) → P ',' →
      ∀ c ∈ joinComma args, P c := by
  intro args
  induction args with
  | nil => intro _ _ c hc; simp [joinComma] at hc
  | cons a rest ih =>
    intro h hcm c hc
    cases rest with
    | nil => exact h a (List.mem_cons_self a []) c hc
    | cons b rest' =>
      have : c ∈ a ++ ',' :: joinComma (b :: rest') := hc
      rcases List.mem_append.mp this with hc | hc
      · exact h a (List.mem_cons_self a _) c hc
      · rcases List.mem_cons.mp hc with hc | hc
        · rw [hc]; exact hcm
        · exact ih (fun x hx => h x (List.mem_cons_of_mem _ hx)) hcm c hc

/-- Stripping is the identity on a clean argument. -/
theorem stripChars_of_clean {a : Chars} (h : cleanArg a = true) : stripChars a = a := by
  have h' := h
  unfold cleanArg at h'
  rw [Bool.and_eq_true, Bool.and_eq_true] at h'
  obtain ⟨⟨-, hhead⟩, hlast⟩ := h'
  unfold stripChars
  have hd : a.dropWhile Char.isWhitespace = a := by
    cases a with
    | nil => rfl
    | cons c rest =>
      rw [List.dropWhile_cons, if_neg]
      simp only [List.headD_cons, Bool.not_eq_true'] at hhead
      simp [hhead]
  rw [hd]
  have hr : a.reverse.dropWhile Char.isWhitespace = a.reverse := by
    cases hrev : a.reverse with
    | nil => rfl
    | cons c rest =>
      have hlastc : a.getLast? = some c := by
        rw [← List.head?_reverse, hrev]
        rfl
      have : a.getLastD 'x' = c := by
        rw [List.getLastD_eq_getLast?, hlastc]
        rfl
      rw [List.dropWhile_cons, if_neg]
      rw [this] at hlast
      simp only [Bool.not_eq_true'] at hlast
      simp [hlast]
  rw [hr, List.reverse_reverse]

/-- Central wire lemma: a line `name(arg0,...,argn)` built by `write` parses
back to exactly its directive name and arguments. -/
theorem parseLine_mkLine {name : Chars} {args : List Chars}
    (hn : wfNameB name = true) (hne : args ≠ [])
    (hargs : ∀ a ∈ args, cleanArg a = true) :
    parseLine (mkLine name args) = some (name, args) := by
  have hn' := hn
  unfold wfNameB at hn'
  rw [Bool.and_eq_true, List.all_eq_true] at hn'
  obtain ⟨hne', hword⟩ := hn'
  have hword' : ∀ c ∈ name, wordChar c = true := by
    intro c hc
    have := hword c hc
    rw [Bool.and_eq_true] at this
    exact this.1
  have hnws : ∀ c ∈ name, c.isWhitespace = false := by
    intro c hc
    have := hword c hc
    rw [Bool.and_eq_true, Bool.not_eq_true'] at this
    exact this.2
  have hclean : ∀ a ∈ args, ∀ c ∈ a, c ≠ ')' ∧ c ≠ ',' := by
    intro a ha c hc
    have := hargs a ha
    unfold cleanArg at this
    rw [Bool.and_eq_true, Bool.and_eq_true, List.all_eq_true] at this
    have := this.1.1 c hc
    rw [Bool.and_eq_true] at this
    constructor
    · simpa using this.1
    · simpa using this.2
  have e1 : (mkLine name args).dropWhile Char.isWhitespace =
      name ++ '(' :: (joinComma args ++ [')']) := by
    unfold mkLine
    cases hnm : name with
    | nil =>
      rw [hnm] at hne'
      exact absurd hne' (by decide)
    | cons c nt =>
      rw [List.cons_append, List.dropWhile_cons, if_neg]
      have := hnws c (by rw [hnm]; exact List.mem_cons_self c nt)
      simp [this]
  have e2 : (name ++ '(' :: (joinComma args ++ [')'])).takeWhile wordChar = name := by
    rw [takeWhile_append_of_all hword', List.takeWhile_cons, if_neg (by decide)]
    simp
  have e3 : ((name ++ '(' :: (joinComma args ++ [')'])).dropWhile wordChar).dropWhile
      Char.isWhitespace = '(' :: (joinComma args ++ [')']) := by
    rw [dropWhile_append_of_all hword', List.dropWhile_cons, if_neg (by decide),
      List.dropWhile_cons, if_neg (by decide)]
  have hjoin : ∀ c ∈ joinComma args, (fun c => decide (c ≠ ')')) c = true := by
    refine mem_joinComma (fun a ha c hc => ?_) (by decide)
    simp [(hclean a ha c hc).1]
  have e5 : (joinComma args ++ [')']).takeWhile (fun c => decide (c ≠ ')')) =
      joinComma args := by
    rw [takeWhile_append_of_all hjoin, List.takeWhile_cons, if_neg (by decide)]
    simp
  have e6 : (joinComma args ++ [')']).dropWhile (fun c => decide (c ≠ ')')) = [')'] := by
    rw [dropWhile_append_of_all hjoin, List.dropWhile_cons, if_neg (by decide)]
  unfold parseLine
  rw [e1, e3]
  simp only [e5, e6, List.dropWhile_nil, e1, e2]
  rw [splitComma_joinComma args hne (fun a ha c hc => (hclean a ha c hc).2)]
  have : args.map stripChars = args := by
    have : args.map stripChars = args.map id := by
      apply List.map_congr_left
      intro a ha
      rw [stripChars_of_clean (hargs a ha)]
      rfl
    rw [this, List.map_id]
  rw [this]

/-! ## Deck codec lemmas -/

/-- What a successful `__shorten_deck` means: the returned pattern is the
prefix at some matching length in 1..14. -/
theorem shorten_deck_some {cards pat : List Chars} (h : shorten_deck cards = some pat) :
    ∃ k, 1 ≤ k ∧ k ≤ 14 ∧ deckMatches cards k = true ∧ pat = cards.take k := by
  unfold shorten_deck at h
  cases hf : (List.range' 1 14).find? (deckMatches cards) with
  | none =>
    rw [hf] at h
    exact Option.noConfusion h
  | some k =>
    rw [hf, Option.map_some'] at h
    have h' := Option.some.inj h
    have hk := List.mem_range'_1.mp (List.mem_of_find?_eq_some hf)
    exact ⟨k, hk.1, by omega, List.find?_some hf, h'.symm⟩

/-- The pattern test at `k` transfers an entry to its residue position. -/
theorem deckMatches_getD {cards : List Chars} {k : Nat} (h : deckMatches cards k = true)
    {i : Nat} (hki : k ≤ i) (hi : i < 30) : cards.getD (i % k) [] = cards.getD i [] := by
  unfold deckMatches at h
  rw [List.all_eq_true] at h
  exact of_decide_eq_true (h i (List.mem_range'_1.mpr ⟨hki, by omega⟩))

/-- `getD` below the cut of a `take` reads the original list. -/
theorem getD_take {l : List Chars} {k j : Nat} (hj : j < k) (hk : k ≤ l.length) :
    (l.take k).getD j [] = l.getD j [] := by
  have h1 : j < (l.take k).length := by
    simp only [List.length_take]
    omega
  have h2 : j < l.length := by omega
  rw [List.getD_eq_getElem _ _ h1, List.getD_eq_getElem _ _ h2, List.getElem_take]

/-- Round-trip of the deck codec on compressible decks: expanding a
successfully shortened 30-card deck reproduces the deck. -/
theorem expand_shorten {cards pat : List Chars} (hlen : cards.length = 30)
    (h : shorten_deck cards = some pat) : expandPattern pat = cards := by
  obtain ⟨k, hk1, hk14, hm, hpat⟩ := shorten_deck_some h
  have hkm : pat.length = k := by
    rw [hpat, List.length_take, hlen]
    omega
  apply List.ext_getElem
  · simp [expandPattern, hlen]
  · intro n h1 h2
    have hn30 : n < 30 := by
      simpa [expandPattern] using h1
    have hmod : n % k < k := Nat.mod_lt _ (by omega)
    have lhs : (expandPattern pat)[n] = pat.getD (n % pat.length) [] := by
      simp [expandPattern, List.getElem_map, List.getElem_range, card_lookup]
    rw [lhs, hkm, hpat, getD_take hmod (by omega)]
    have step : cards.getD (n % k) [] = cards.getD n [] := by
      by_cases hnk : n < k
      · rw [Nat.mod_eq_of_lt hnk]
      · exact deckMatches_getD hm (by omega) hn30
    rw [step, List.getD_eq_getElem _ _ h2]

/-! ## Clean-argument lemmas for written numbers -/

/-- A digit character is not a whitespace character. -/
theorem isDigit_not_ws {c : Char} (h : c.isDigit = true) : c.isWhitespace = false := by
  by_contra hw
  rw [Bool.not_eq_false] at hw
  have hcs : c = ' ' ∨ c = '\t' ∨ c = '\r' ∨ c = '\n' := by
    unfold Char.isWhitespace at hw
    simp only [Bool.or_eq_true, decide_eq_true_eq] at hw
    tauto
  rcases hcs with rfl | rfl | rfl | rfl <;> exact absurd h (by decide)

/-- The last entry with default is a member of a nonempty list. -/
theorem getLastD_mem : ∀ (l : Chars) (d : Char), l = [] ∨ l.getLastD d ∈ l := by
  intro l
  induction l with
  | nil => intro d; exact Or.inl rfl
  | cons a l ih =>
    intro d
    refine Or.inr ?_
    rw [List.getLastD_cons]
    rcases ih a with h | h
    · rw [h]
      simp
    · exact List.mem_cons_of_mem _ h

/-- An all-digit nonempty string is a clean argument. -/
theorem cleanArg_of_digits {s : Chars} (hne : s ≠ []) (h : ∀ c ∈ s, c.isDigit = true) :
    cleanArg s = true := by
  unfold cleanArg
  rw [Bool.and_eq_true, Bool.and_eq_true, List.all_eq_true]
  refine ⟨⟨fun c hc => ?_, ?_⟩, ?_⟩
  · have hd := h c hc
    rw [Bool.and_eq_true]
    constructor
    · simp only [ne_eq, decide_eq_true_eq]
      intro he
      rw [he] at hd
      exact absurd hd (by decide)
    · simp only [ne_eq, decide_eq_true_eq]
      intro he
      rw [he] at hd
      exact absurd hd (by decide)
  · cases s with
    | nil => exact absurd rfl hne
    | cons a l =>
      rw [List.headD_cons]
      simp [isDigit_not_ws (h a (List.mem_cons_self a l))]
  · rcases getLastD_mem s 'x' with hs | hs
    · exact absurd hs hne
    · rw [Bool.not_eq_true']
      exact isDigit_not_ws (h _ hs)

/-- `str(i)` is never empty. -/
theorem intToChars_ne_nil (i : Int) : intToChars i ≠ [] := by
  unfold intToChars
  split
  · simp
  · exact natToChars_ne_nil _

/-- `str(i)` is a clean argument. -/
theorem cleanArg_intToChars (i : Int) : cleanArg (intToChars i) = true := by
  unfold intToChars
  split
  · unfold cleanArg
    rw [Bool.and_eq_true, Bool.and_eq_true, List.all_eq_true]
    refine ⟨⟨fun c hc => ?_, ?_⟩, ?_⟩
    · rcases List.mem_cons.mp hc with rfl | hc
      · decide
      · have hd := natToChars_all_digits _ c hc
        rw [Bool.and_eq_true]
        constructor
        · simp only [ne_eq, decide_eq_true_eq]
          intro he
          rw [he] at hd
          exact absurd hd (by decide)
        · simp only [ne_eq, decide_eq_true_eq]
          intro he
          rw [he] at hd
          exact absurd hd (by decide)
    · rw [List.headD_cons]
      decide
    · rw [List.getLastD_cons]
      rcases getLastD_mem (natToChars i.natAbs) '-' with hs | hs
      · exact absurd hs (natToChars_ne_nil _)
      · rw [Bool.not_eq_true']
        exact isDigit_not_ws (natToChars_all_digits _ _ hs)
  · exact cleanArg_of_digits (natToChars_ne_nil _) (natToChars_all_digits _)

/-- `int(...)` over a written integer list succeeds and inverts it. -/
theorem mapM_charsToInt_intToChars (ks : List Int) :
    (ks.map intToChars).mapM charsToInt? = some ks := by
  induction ks with
  | nil => rfl
  | cons a l ih =>
    rw [List.map_cons, List.mapM_cons, charsToInt?_intToChars, ih]
    rfl

/-- Updating the last element of a list ending in `m` touches only `m`. -/
theorem updateLast_append_singleton (f : MoveRec → MoveRec) (l : List MoveRec) (m : MoveRec) :
    updateLast f (l ++ [m]) = l ++ [f m] := by
  induction l with
  | nil => rfl
  | cons a l' ih =>
    show updateLast f (a :: (l' ++ [m])) = a :: (l' ++ [f m])
    cases l' with
    | nil => rfl
    | cons b l'' =>
      show updateLast f (a :: b :: (l'' ++ [m])) = a :: (b :: l'' ++ [f m])
      rw [show updateLast f (a :: b :: (l'' ++ [m])) = a :: updateLast f (b :: (l'' ++ [m])) from rfl]
      rw [show (b :: (l'' ++ [m])) = (b :: l'') ++ [m] from rfl, ih]

/-- A written draw parses back to itself when well formed. -/
theorem parseMoveDraw_drawToChars {d : RDraw} (h : wfMoveDrawB d = true) :
    parseMoveDraw (drawToChars d) = d := by
  cases d with
  | num n =>
    have hn : 0 ≤ n := by
      unfold wfMoveDrawB at h
      exact of_decide_eq_true h
    have e1 : drawToChars (RDraw.num n) = natToChars n.natAbs := by
      show intToChars n = natToChars n.natAbs
      unfold intToChars
      rw [if_neg (by omega)]
    rw [e1]
    unfold parseMoveDraw
    rw [if_pos (isdigit_natToChars _), digitsVal_natToChars]
    congr 1
    omega
  | char s =>
    unfold wfMoveDrawB at h
    rw [Bool.and_eq_true, Bool.not_eq_true'] at h
    unfold drawToChars parseMoveDraw
    rw [if_neg (by simp [h.2])]

/-- A well-formed draw serializes to a clean argument. -/
theorem cleanArg_drawToChars {d : RDraw} (h : wfMoveDrawB d = true) :
    cleanArg (drawToChars d) = true := by
  cases d with
  | num n => exact cleanArg_intToChars n
  | char s =>
    unfold wfMoveDrawB at h
    rw [Bool.and_eq_true] at h
    exact h.1

/-- Well-formed draws of a move read back to themselves. -/
theorem map_parseMoveDraw_drawToChars {ds : List RDraw}
    (h : ∀ d ∈ ds, wfMoveDrawB d = true) :
    (ds.map drawToChars).map parseMoveDraw = ds := by
  rw [List.map_map]
  have : ds.map (parseMoveDraw ∘ drawToChars) = ds.map id := by
    apply List.map_congr_left
    intro d hd
    exact parseMoveDraw_drawToChars (h d hd)
  rw [this, List.map_id]

/-! ## Evaluation of `read` on the lines `write` produces -/

/-- A line that parses routes `readStep` to its directive. -/
theorem readStep_parse {line mv : Chars} {args : List Chars} (r : Replay)
    (h : parseLine line = some (mv, args)) : readStep r line = readDirective r mv args := by
  unfold readStep
  rw [h]

/-- One step of the directive loop, as an equation. -/
theorem readAux_cons (l : Chars) (rest : List Chars) (r : Replay) :
    readAux (l :: rest) r = match readStep r l with
      | .ok r' => readAux rest r'
      | .error e => .error e := rfl

/-- The directive loop splits over concatenation. -/
theorem readAux_append (xs ys : List Chars) (r : Replay) :
    readAux (xs ++ ys) r = (readAux xs r).bind (fun r' => readAux ys r') := by
  induction xs generalizing r with
  | nil => rfl
  | cons l xs ih =>
    rw [List.cons_append, readAux_cons, readAux_cons]
    cases h : readStep r l with
    | ok r' => simpa using ih r'
    | error e => rfl

/-- The `play(card)` line appends a target-less play move. -/
theorem readDirective_play1 (r : Replay) (card : Chars) :
    readDirective r (strC "play") [card] =
      .ok { r with _moves := r._moves ++ [⟨.play card none none, []⟩] } := by
  unfold readDirective
  rw [if_pos rfl]

/-- The `play(card,target)` line appends a targeted play move. -/
theorem readDirective_play2 (r : Replay) (card t : Chars) :
    readDirective r (strC "play") [card, t] =
      .ok { r with _moves := r._moves ++ [⟨.play card none (some t), []⟩] } := by
  unfold readDirective
  rw [if_pos rfl]

/-- The `summon(card,i)` line appends an indexed play move. -/
theorem readDirective_summon1 (r : Replay) (card : Chars) (i : Int) :
    readDirective r (strC "summon") [card, intToChars i] =
      .ok { r with _moves := r._moves ++ [⟨.play card (some i) none, []⟩] } := by
  unfold readDirective
  rw [if_neg (by decide), if_pos rfl]
  simp only [charsToInt?_intToChars]

/-- The `summon(card,i,target)` line appends an indexed targeted play move. -/
theorem readDirective_summon2 (r : Replay) (card t : Chars) (i : Int) :
    readDirective r (strC "summon") [card, intToChars i, t] =
      .ok { r with _moves := r._moves ++ [⟨.play card (some i) (some t), []⟩] } := by
  unfold readDirective
  rw [if_neg (by decide), if_pos rfl]
  simp only [charsToInt?_intToChars]

/-- The `attack(a,t)` line appends an attack move. -/
theorem readDirective_attack (r : Replay) (a t : Chars) :
    readDirective r (strC "attack") [a, t] =
      .ok { r with _moves := r._moves ++ [⟨.attack a t, []⟩] } := by
  unfold readDirective
  rw [if_neg (by decide), if_neg (by decide), if_pos rfl]

/-- The `power()` line appends a target-less power move. -/
theorem readDirective_power0 (r : Replay) :
    readDirective r (strC "power") [[]] =
      .ok { r with _moves := r._moves ++ [⟨.power none, []⟩] } := by
  unfold readDirective
  rw [if_neg (by decide), if_neg (by decide), if_neg (by decide), if_pos rfl]
  rfl

/-- The `power(target)` line appends a targeted power move. -/
theorem readDirective_power1 (r : Replay) (t : Chars) (ht : t ≠ []) :
    readDirective r (strC "power") [t] =
      .ok { r with _moves := r._moves ++ [⟨.power (some t), []⟩] } := by
  unfold readDirective
  rw [if_neg (by decide), if_neg (by decide), if_neg (by decide), if_pos rfl]
  simp only [if_neg ht]

/-- The `end()` line appends a turn-end move. -/
theorem readDirective_end (r : Replay) (args : List Chars) :
    readDirective r (strC "end") args =
      .ok { r with _moves := r._moves ++ [⟨.turnEnd, []⟩] } := by
  unfold readDirective
  rw [if_neg (by decide), if_neg (by decide), if_neg (by decide), if_neg (by decide),
    if_pos rfl]

/-- The `start()` line appends a turn-start move. -/
theorem readDirective_start (r : Replay) (args : List Chars) :
    readDirective r (strC "start") args =
      .ok { r with _moves := r._moves ++ [⟨.turnStart, []⟩] } := by
  unfold readDirective
  rw [if_neg (by decide), if_neg (by decide), if_neg (by decide), if_neg (by decide),
    if_neg (by decide), if_pos rfl]

/-- The `concede()` line appends a concede move. -/
theorem readDirective_concede (r : Replay) (args : List Chars) :
    readDirective r (strC "concede") args =
      .ok { r with _moves := r._moves ++ [⟨.concede, []⟩] } := by
  unfold readDirective
  rw [if_neg (by decide), if_neg (by decide), if_neg (by decide), if_neg (by decide),
    if_neg (by decide), if_neg (by decide), if_neg (by decide), if_neg (by decide),
    if_neg (by decide), if_pos rfl]

/-- An empty pre-game `random()` line leaves an unstarted replay alone. -/
theorem readDirective_random_empty (r : Replay) (hm : r._moves = []) :
    readDirective r (strC "random") [[]] = .ok r := by
  unfold readDirective
  rw [if_neg (by decide), if_neg (by decide), if_neg (by decide), if_neg (by decide),
    if_neg (by decide), if_neg (by decide), if_pos rfl, if_pos (by simp [hm]),
    if_neg (by decide)]

/-- A nonempty pre-game `random(...)` line parses its integers onto the
pre-game list. -/
theorem readDirective_random_pre (r : Replay) (hm : r._moves = []) (nums : List Int)
    (hne : nums ≠ []) :
    readDirective r (strC "random") (nums.map intToChars) =
      .ok { r with random := r.random ++ nums.map RDraw.num } := by
  unfold readDirective
  rw [if_neg (by decide), if_neg (by decide), if_neg (by decide), if_neg (by decide),
    if_neg (by decide), if_neg (by decide), if_pos rfl, if_pos (by simp [hm])]
  cases hn : nums with
  | nil => exact absurd hn hne
  | cons n0 ntail =>
    have h0 : (intToChars n0).length > 0 := by
      cases hc : intToChars n0 with
      | nil => exact absurd hc (intToChars_ne_nil n0)
      | cons c cs => simp
    rw [List.map_cons]
    simp only [List.headD_cons]
    rw [if_pos h0, ← List.map_cons, ← hn, mapM_charsToInt_intToChars]

/-- A `random(...)` line after a move appends the parsed draws to the last
move. -/
theorem readDirective_random_move (r : Replay) (hm : r._moves ≠ []) (args : List Chars) :
    readDirective r (strC "random") args =
      .ok { r with
        _moves := updateLast
          (fun m => { m with random_numbers := m.random_numbers ++ args.map parseMoveDraw })
          r._moves } := by
  unfold readDirective
  rw [if_neg (by decide), if_neg (by decide), if_neg (by decide), if_neg (by decide),
    if_neg (by decide), if_neg (by decide), if_pos rfl, if_neg (by simp [hm])]

/-- A `deck(class,pattern...)` line appends the expanded deck when fewer
than two decks have been read. -/
theorem readDirective_deck (r : Replay) (cl : Chars) (pat : List Chars)
    (hlen : r.decks.length ≤ 1) (hpat : pat ≠ []) :
    readDirective r (strC "deck") (cl :: pat) =
      .ok { r with decks := r.decks ++ [⟨expandPattern pat, CHARACTER_CLASS_from_str cl⟩] } := by
  unfold readDirective
  rw [if_neg (by decide), if_neg (by decide), if_neg (by decide), if_neg (by decide),
    if_neg (by decide), if_neg (by decide), if_neg (by decide), if_pos rfl,
    if_neg (by omega)]
  simp only [if_neg (by simp [hpat] : ¬pat.length = 0)]

/-- A third `deck(...)` line raises the cardinality error. -/
theorem readDirective_deck_full (r : Replay) (args : List Chars)
    (hlen : r.decks.length > 1) :
    readDirective r (strC "deck") args = .error .maxDecks := by
  unfold readDirective
  rw [if_neg (by decide), if_neg (by decide), if_neg (by decide), if_neg (by decide),
    if_neg (by decide), if_neg (by decide), if_neg (by decide), if_pos rfl,
    if_pos hlen]

/-- A `keep(...)` line appends its parsed indices when fewer than two
keeps have been read. -/
theorem readDirective_keep (r : Replay) (ks : List Int) (hlen : r.keeps.length ≤ 1) :
    readDirective r (strC "keep") (ks.map intToChars) =
      .ok { r with keeps := r.keeps ++ [ks] } := by
  unfold readDirective
  rw [if_neg (by decide), if_neg (by decide), if_neg (by decide), if_neg (by decide),
    if_neg (by decide), if_neg (by decide), if_neg (by decide), if_neg (by decide),
    if_pos rfl, if_neg (by omega)]
  rw [mapM_charsToInt_intToChars]

/-- A third `keep(...)` line raises the cardinality error. -/
theorem readDirective_keep_full (r : Replay) (args : List Chars)
    (hlen : r.keeps.length > 1) :
    readDirective r (strC "keep") args = .error .maxKeeps := by
  unfold readDirective
  rw [if_neg (by decide), if_neg (by decide), if_neg (by decide), if_neg (by decide),
    if_neg (by decide), if_neg (by decide), if_neg (by decide), if_neg (by decide),
    if_pos rfl, if_pos hlen]

/-- `argsOfList` is the identity away from the empty list. -/
theorem argsOfList_of_ne_nil {xs : List Chars} (h : xs ≠ []) : argsOfList xs = xs := by
  unfold argsOfList
  rw [if_neg (by simpa using h)]

/-- An all-numeric draw list is the numeric embedding of its values. -/
theorem numsOf_spec {l : List RDraw} (h : ∀ d ∈ l, isNumDraw d = true) :
    (numsOf l).map RDraw.num = l ∧ l.map drawToChars = (numsOf l).map intToChars := by
  induction l with
  | nil => exact ⟨rfl, rfl⟩
  | cons d t ih =>
    obtain ⟨ih1, ih2⟩ := ih (fun x hx => h x (List.mem_cons_of_mem _ hx))
    cases d with
    | num n =>
      constructor
      · show RDraw.num n :: (numsOf t).map RDraw.num = RDraw.num n :: t
        rw [ih1]
      · show intToChars n :: t.map drawToChars = intToChars n :: (numsOf t).map intToChars
        rw [ih2]
    | char s =>
      have hcs := h _ (List.mem_cons_self (RDraw.char s) t)
      exact absurd hcs (by simp [isNumDraw])

/-- The directive line of one move appends that move (with no draws yet). -/
theorem readStep_outputMove (r : Replay) (k : MoveKind) (hwf : wfKindB k = true) :
    readStep r (to_output_string k) = .ok { r with _moves := r._moves ++ [⟨k, []⟩] } := by
  cases k with
  | play card idx tgt =>
    unfold wfKindB at hwf
    rw [Bool.and_eq_true] at hwf
    obtain ⟨hcard, htgt⟩ := hwf
    cases idx with
    | none =>
      cases tgt with
      | none =>
        rw [show to_output_string (.play card none none) = mkLine (strC "play") [card] from rfl,
          readStep_parse r (parseLine_mkLine (by decide) (by simp)
            (by intro a ha; rw [List.mem_singleton.mp ha]; exact hcard))]
        exact readDirective_play1 r card
      | some t =>
        have ht : cleanArg t = true := htgt
        rw [show to_output_string (.play card none (some t)) = mkLine (strC "play") [card, t] from rfl,
          readStep_parse r (parseLine_mkLine (by decide) (by simp)
            (by
              intro a ha
              rcases List.mem_cons.mp ha with rfl | ha
              · exact hcard
              · rw [List.mem_singleton.mp ha]
                exact ht))]
        exact readDirective_play2 r card t
    | some i =>
      cases tgt with
      | none =>
        rw [show to_output_string (.play card (some i) none) =
            mkLine (strC "summon") [card, intToChars i] from rfl,
          readStep_parse r (parseLine_mkLine (by decide) (by simp)
            (by
              intro a ha
              rcases List.mem_cons.mp ha with rfl | ha
              · exact hcard
              · rw [List.mem_singleton.mp ha]
                exact cleanArg_intToChars i))]
        exact readDirective_summon1 r card i
      | some t =>
        have ht : cleanArg t = true := htgt
        rw [show to_output_string (.play card (some i) (some t)) =
            mkLine (strC "summon") [card, intToChars i, t] from rfl,
          readStep_parse r (parseLine_mkLine (by decide) (by simp)
            (by
              intro a ha
              rcases List.mem_cons.mp ha with rfl | ha
              · exact hcard
              rcases List.mem_cons.mp ha with rfl | ha
              · exact cleanArg_intToChars i
              · rw [List.mem_singleton.mp ha]
                exact ht))]
        exact readDirective_summon2 r card t i
  | attack a t =>
    unfold wfKindB at hwf
    rw [Bool.and_eq_true] at hwf
    rw [show to_output_string (.attack a t) = mkLine (strC "attack") [a, t] from rfl,
      readStep_parse r (parseLine_mkLine (by decide) (by simp)
        (by
          intro x hx
          rcases List.mem_cons.mp hx with rfl | hx
          · exact hwf.1
          · rw [List.mem_singleton.mp hx]
            exact hwf.2))]
    exact readDirective_attack r a t
  | power tgt =>
    cases tgt with
    | none =>
      rw [show to_output_string (.power none) = mkLine (strC "power") [[]] from rfl,
        readStep_parse r (parseLine_mkLine (by decide) (by simp)
          (by intro a ha; rw [List.mem_singleton.mp ha]; decide))]
      exact readDirective_power0 r
    | some t =>
      have hw : cleanArg t = true ∧ t ≠ [] := by
        have := hwf
        unfold wfKindB at this
        have h2 : (cleanArg t && !t.isEmpty) = true := this
        rw [Bool.and_eq_true, Bool.not_eq_true'] at h2
        exact ⟨h2.1, by simpa using h2.2⟩
      rw [show to_output_string (.power (some t)) = mkLine (strC "power") [t] from rfl,
        readStep_parse r (parseLine_mkLine (by decide) (by simp)
          (by intro a ha; rw [List.mem_singleton.mp ha]; exact hw.1))]
      exact readDirective_power1 r t hw.2
  | turnEnd =>
    rw [show to_output_string .turnEnd = mkLine (strC "end") [[]] from rfl,
      readStep_parse r (parseLine_mkLine (by decide) (by simp)
        (by intro a ha; rw [List.mem_singleton.mp ha]; decide))]
    exact readDirective_end r [[]]
  | turnStart =>
    rw [show to_output_string .turnStart = mkLine (strC "start") [[]] from rfl,
      readStep_parse r (parseLine_mkLine (by decide) (by simp)
        (by intro a ha; rw [List.mem_singleton.mp ha]; decide))]
    exact readDirective_start r [[]]
  | concede =>
    rw [show to_output_string .concede = mkLine (strC "concede") [[]] from rfl,
      readStep_parse r (parseLine_mkLine (by decide) (by simp)
        (by intro a ha; rw [List.mem_singleton.mp ha]; decide))]
    exact readDirective_concede r [[]]

/-- The line block of one move reconstructs the move, draws included. -/
theorem readAux_moveLines (r : Replay) (m : MoveRec) (hwf : wfMoveB m = true) :
    readAux (moveLines m) r = .ok { r with _moves := r._moves ++ [m] } := by
  obtain ⟨k, ds⟩ := m
  unfold wfMoveB at hwf
  rw [Bool.and_eq_true, List.all_eq_true] at hwf
  obtain ⟨hk, hds⟩ := hwf
  unfold moveLines
  cases ds with
  | nil =>
    rw [if_neg (by simp)]
    rw [readAux_cons, readStep_outputMove r k hk]
    rfl
  | cons d0 dt =>
    rw [if_pos (by simp)]
    rw [readAux_cons, readStep_outputMove r k hk]
    show readAux [mkLine (strC "random") (argsOfList ((d0 :: dt).map drawToChars))]
      { r with _moves := r._moves ++ [⟨k, []⟩] } = _
    rw [argsOfList_of_ne_nil (by simp), readAux_cons,
      readStep_parse _ (parseLine_mkLine (by decide) (by simp)
        (by
          intro a ha
          obtain ⟨d, hd, rfl⟩ := List.mem_map.mp ha
          exact cleanArg_drawToChars (hds d hd))),
      readDirective_random_move _ (by simp) _]
    simp only [updateLast_append_singleton, map_parseMoveDraw_drawToChars hds,
      List.nil_append]
    rfl

/-- The line blocks of a move list reconstruct the moves in order. -/
theorem readAux_movesLines (moves : List MoveRec) (r : Replay)
    (h : ∀ m ∈ moves, wfMoveB m = true) :
    readAux ((moves.map moveLines).flatten) r = .ok { r with _moves := r._moves ++ moves } := by
  induction moves generalizing r with
  | nil =>
    show Except.ok r = _
    simp
  | cons m ms ih =>
    rw [List.map_cons, List.flatten_cons, readAux_append,
      readAux_moveLines r m (h m (List.mem_cons_self m ms))]
    show readAux ((ms.map moveLines).flatten) { r with _moves := r._moves ++ [m] } = _
    rw [ih _ (fun x hx => h x (List.mem_cons_of_mem _ hx))]
    simp [List.append_assoc]

/-- The deck lines of compressible decks reconstruct the decks in order. -/
theorem readAux_deckLines :
    ∀ (ds : List Deck) (ls : List Chars) (r : Replay),
      (∀ d ∈ ds, wfDeckB d = true) → r.decks.length + ds.length ≤ 2 →
      ds.mapM deckLine = some ls →
      readAux ls r = .ok { r with decks := r.decks ++ ds } := by
  intro ds
  induction ds with
  | nil =>
    intro ls r _ _ hmap
    have : ls = [] := by
      have : (some [] : Option (List Chars)) = some ls := hmap
      exact (Option.some.inj this).symm
    rw [this]
    show Except.ok r = _
    simp
  | cons d dt ih =>
    intro ls r hwf hlen hmap
    simp only [List.length_cons] at hlen
    have hd := hwf d (List.mem_cons_self d dt)
    have hd' := hd
    unfold wfDeckB at hd'
    rw [Bool.and_eq_true, Bool.and_eq_true, Bool.and_eq_true] at hd'
    obtain ⟨⟨⟨hd30, hdsome⟩, hdcards⟩, hdclass⟩ := hd'
    rw [List.all_eq_true] at hdcards
    cases hpat : shorten_deck d.cards with
    | none =>
      rw [hpat] at hdsome
      exact absurd hdsome (by decide)
    | some pat =>
      have hd30' : d.cards.length = 30 := by
        simpa using hd30
      obtain ⟨k, hk1, hk14, hmk, hpk⟩ := shorten_deck_some hpat
      have hpatlen : pat.length = k := by
        rw [hpk, List.length_take, hd30']
        omega
      have hpatne : pat ≠ [] := by
        intro he
        rw [he] at hpatlen
        simp at hpatlen
        omega
      have hline : deckLine d = some (mkLine (strC "deck")
          (CHARACTER_CLASS_to_str d.character_class :: pat)) := by
        unfold deckLine
        rw [hpat, Option.map_some']
      rw [List.mapM_cons, hline] at hmap
      cases hmt : dt.mapM deckLine with
      | none =>
        rw [hmt] at hmap
        exact Option.noConfusion hmap
      | some ls' =>
        rw [hmt] at hmap
        have hls : ls = mkLine (strC "deck")
            (CHARACTER_CLASS_to_str d.character_class :: pat) :: ls' := by
          have : (some (mkLine (strC "deck")
            (CHARACTER_CLASS_to_str d.character_class :: pat) :: ls') :
              Option (List Chars)) = some ls := hmap
          exact (Option.some.inj this).symm
        rw [hls, readAux_cons,
          readStep_parse _ (parseLine_mkLine (by decide) (by simp)
            (by
              intro a ha
              rcases List.mem_cons.mp ha with rfl | ha
              · exact hdclass
              · exact hdcards a (List.take_subset k d.cards (hpk ▸ ha)))),
          readDirective_deck _ _ _ (by omega) hpatne]
        show readAux ls' _ = _
        rw [ih ls' _ (fun x hx => hwf x (List.mem_cons_of_mem _ hx)) (by simp; omega) hmt]
        rw [expand_shorten hd30' hpat]
        show Except.ok _ = _
        rw [Except.ok.injEq]
        show ({ r with decks := (r.decks ++ [⟨d.cards, d.character_class⟩]) ++ dt } : Replay) = _
        rw [List.append_assoc]
        rfl

/-- The keep lines reconstruct the keep lists in order. -/
theorem readAux_keepLines :
    ∀ (ks : List (List Int)) (r : Replay),
      (∀ k ∈ ks, k ≠ []) → r.keeps.length + ks.length ≤ 2 →
      readAux (ks.map keepLine) r = .ok { r with keeps := r.keeps ++ ks } := by
  intro ks
  induction ks with
  | nil =>
    intro r _ _
    show Except.ok r = _
    simp
  | cons k kt ih =>
    intro r hne hlen
    simp only [List.length_cons] at hlen
    have hkne : k ≠ [] := hne k (List.mem_cons_self k kt)
    have hmapne : k.map intToChars ≠ [] := by
      simpa using hkne
    rw [List.map_cons]
    rw [show keepLine k = mkLine (strC "keep") (k.map intToChars) from by
      unfold keepLine
      rw [argsOfList_of_ne_nil hmapne]]
    rw [readAux_cons,
      readStep_parse _ (parseLine_mkLine (by decide) hmapne
        (by
          intro a ha
          obtain ⟨i, _, rfl⟩ := List.mem_map.mp ha
          exact cleanArg_intToChars i)),
      readDirective_keep _ _ (by omega)]
    show readAux (kt.map keepLine) _ = _
    rw [ih _ (fun x hx => hne x (List.mem_cons_of_mem _ hx)) (by simp; omega)]
    show Except.ok _ = _
    rw [Except.ok.injEq]
    show ({ r with keeps := (r.keeps ++ [k]) ++ kt } : Replay) = _
    rw [List.append_assoc]
    rfl

/-- The pre-game `random(...)` line read into an unstarted state adds the
recorded list when some draw is nonzero, and nothing otherwise. -/
theorem readStep_randomHeader (r0 rw : Replay) (hm : r0._moves = [])
    (hnums : ∀ d ∈ rw.random, isNumDraw d = true) :
    readStep r0 (randomHeaderLine rw) =
      .ok { r0 with random := r0.random ++ (if foundRandom rw then rw.random else []) } := by
  unfold randomHeaderLine
  by_cases hf : foundRandom rw
  · rw [if_pos hf, if_pos hf]
    cases hr : rw.random with
    | nil =>
      rw [show argsOfList (([] : List RDraw).map drawToChars) = [[]] from rfl,
        readStep_parse _ (parseLine_mkLine (by decide) (by simp)
          (by intro a ha; rw [List.mem_singleton.mp ha]; decide)),
        readDirective_random_empty r0 hm]
      simp
    | cons d0 dtl =>
      obtain ⟨hback, hfwd⟩ := numsOf_spec (hr ▸ hnums)
      have hnz : numsOf (d0 :: dtl) ≠ [] := by
        unfold numsOf
        simp
      rw [hfwd, argsOfList_of_ne_nil (by simpa using hnz),
        readStep_parse _ (parseLine_mkLine (by decide) (by simpa using hnz)
          (by
            intro a ha
            obtain ⟨i, _, rfl⟩ := List.mem_map.mp ha
            exact cleanArg_intToChars i)),
        readDirective_random_pre r0 hm _ hnz, hback]
  · rw [if_neg hf, if_neg hf,
      readStep_parse _ (parseLine_mkLine (by decide) (by simp)
        (by intro a ha; rw [List.mem_singleton.mp ha]; decide)),
      readDirective_random_empty r0 hm]
    simp

/-- Unpacking the well-recordedness boolean. -/
theorem wellRecordedB_spec {r : Replay} (h : wellRecordedB r = true) :
    r.decks.length ≤ 2 ∧ (∀ d ∈ r.decks, wfDeckB d = true) ∧ r.keeps.length ≤ 2 ∧
      (∀ k ∈ r.keeps, k ≠ []) ∧ (∀ d ∈ r.random, isNumDraw d = true) ∧
      (∀ m ∈ r._moves, wfMoveB m = true) := by
  unfold wellRecordedB at h
  rw [Bool.and_eq_true, Bool.and_eq_true, Bool.and_eq_true, Bool.and_eq_true,
    Bool.and_eq_true] at h
  obtain ⟨⟨⟨⟨⟨h1, h2⟩, h3⟩, h4⟩, h5⟩, h6⟩ := h
  refine ⟨of_decide_eq_true h1, List.all_eq_true.mp h2, of_decide_eq_true h3,
    ?_, List.all_eq_true.mp h5, List.all_eq_true.mp h6⟩
  intro k hk
  have := List.all_eq_true.mp h4 k hk
  simpa using this

/-- Reading back a written compact replay: everything is reproduced except
that the keep default is substituted when no keeps were recorded, and the
pre-game random list survives exactly when some recorded draw is nonzero. -/
theorem readLines_writeCompact {r : Replay} {ls : List Chars}
    (h : wellRecordedB r = true) (hw : writeCompact r = some ls) :
    readLines ls = .ok ⟨r._moves, r.decks,
      (if r.keeps = [] then defaultKeeps else r.keeps),
      (if foundRandom r then r.random else [])⟩ := by
  obtain ⟨hd2, hdwf, hk2, hkne, hnum, hmwf⟩ := wellRecordedB_spec h
  unfold writeCompact at hw
  cases hmap : r.decks.mapM deckLine with
  | none =>
    rw [hmap] at hw
    exact Option.noConfusion hw
  | some dls =>
    rw [hmap] at hw
    have hls : ls = dls ++ randomHeaderLine r ::
        (r.keeps.map keepLine ++ (r._moves.map moveLines).flatten) := by
      exact (Option.some.inj hw).symm
    subst hls
    unfold readLines
    rw [readAux_append,
      readAux_deckLines r.decks dls emptyReplay hdwf (by simpa [emptyReplay] using hd2) hmap]
    show (readAux (randomHeaderLine r ::
        (r.keeps.map keepLine ++ (r._moves.map moveLines).flatten))
      (⟨[], r.decks, [], []⟩ : Replay)).map _ = _
    rw [readAux_cons, readStep_randomHeader ⟨[], r.decks, [], []⟩ r rfl hnum]
    show (readAux (r.keeps.map keepLine ++ (r._moves.map moveLines).flatten)
      (⟨[], r.decks, [], if foundRandom r then r.random else []⟩ : Replay)).map _ = _
    rw [readAux_append, readAux_keepLines r.keeps _ hkne (by simpa using hk2)]
    show (readAux ((r._moves.map moveLines).flatten)
      (⟨[], r.decks, r.keeps, if foundRandom r then r.random else []⟩ : Replay)).map _ = _
    rw [readAux_movesLines r._moves _ hmwf]
    show Except.ok (if r.keeps.length = 0 then
        (⟨r._moves, r.decks, defaultKeeps, if foundRandom r then r.random else []⟩ : Replay)
      else ⟨r._moves, r.decks, r.keeps, if foundRandom r then r.random else []⟩) = _
    by_cases hke : r.keeps = []
    · rw [if_pos (by simp [hke]), if_pos hke]
    · rw [if_neg (by simpa using hke), if_neg hke]

/-- Reading back a written structured (json) replay: decks are re-expanded,
keeps default-substituted when empty, moves and the pre-game random list
taken verbatim. -/
theorem readJson_writeJson {r : Replay} {doc : JsonDoc}
    (hdwf : ∀ d ∈ r.decks, wfDeckB d = true) (hw : writeJson r = some doc) :
    readJson doc = .ok ⟨r._moves, r.decks,
      (if r.keeps = [] then defaultKeeps else r.keeps), r.random⟩ := by
  unfold writeJson at hw
  cases hmap : r.decks.mapM (fun d =>
      (shorten_deck d.cards).map
        (fun pat => JsonDeck.mk pat (CHARACTER_CLASS_to_str d.character_class))) with
  | none =>
    rw [hmap] at hw
    exact Option.noConfusion hw
  | some jds =>
    rw [hmap] at hw
    have hdoc : doc = ⟨jds, r.keeps, r.random, r._moves⟩ := (Option.some.inj hw).symm
    subst hdoc
    unfold readJson
    have hexp : ∀ (ds : List Deck) (jds : List JsonDeck), (∀ d ∈ ds, wfDeckB d = true) →
        ds.mapM (fun d => (shorten_deck d.cards).map
          (fun pat => JsonDeck.mk pat (CHARACTER_CLASS_to_str d.character_class))) = some jds →
        jds.mapM (fun d =>
          if d.cards.length = 0 then Except.error PErr.zeroDivisionError
          else Except.ok (Deck.mk (expandPattern d.cards) (CHARACTER_CLASS_from_str d.cclass)))
          = .ok ds := by
      intro ds
      induction ds with
      | nil =>
        intro jds _ hm
        have : jds = [] := (Option.some.inj hm).symm
        rw [this]
        rfl
      | cons d dt ih =>
        intro jds hwf hm
        have hd := hwf d (List.mem_cons_self d dt)
        have hd' := hd
        unfold wfDeckB at hd'
        rw [Bool.and_eq_true, Bool.and_eq_true, Bool.and_eq_true] at hd'
        obtain ⟨⟨⟨hd30, hdsome⟩, _⟩, _⟩ := hd'
        have hd30' : d.cards.length = 30 := by simpa using hd30
        cases hpat : shorten_deck d.cards with
        | none =>
          rw [hpat] at hdsome
          exact absurd hdsome (by decide)
        | some pat =>
          obtain ⟨k, hk1, hk14, hmk, hpk⟩ := shorten_deck_some hpat
          have hpatlen : pat.length = k := by
            rw [hpk, List.length_take, hd30']
            omega
          rw [List.mapM_cons, hpat, Option.map_some'] at hm
          cases hmt : dt.mapM (fun d => (shorten_deck d.cards).map
              (fun pat => JsonDeck.mk pat (CHARACTER_CLASS_to_str d.character_class))) with
          | none =>
            rw [hmt] at hm
            exact Option.noConfusion hm
          | some jdt =>
            rw [hmt] at hm
            have hjds : jds = JsonDeck.mk pat (CHARACTER_CLASS_to_str d.character_class) :: jdt := by
              have : (some (JsonDeck.mk pat (CHARACTER_CLASS_to_str d.character_class) :: jdt) :
                  Option (List JsonDeck)) = some jds := hm
              exact (Option.some.inj this).symm
            subst hjds
            rw [List.mapM_cons]
            rw [show (if (JsonDeck.mk pat (CHARACTER_CLASS_to_str d.character_class)).cards.length = 0
                then Except.error PErr.zeroDivisionError
                else Except.ok (Deck.mk (expandPattern
                  (JsonDeck.mk pat (CHARACTER_CLASS_to_str d.character_class)).cards)
                  (CHARACTER_CLASS_from_str
                    (JsonDeck.mk pat (CHARACTER_CLASS_to_str d.character_class)).cclass))) =
              Except.ok (Deck.mk (expandPattern pat) d.character_class) from by
              rw [if_neg (by simp [hpatlen]; omega)]
              rfl]
            rw [expand_shorten hd30' hpat,
              ih jdt (fun x hx => hwf x (List.mem_cons_of_mem _ hx)) hmt]
            show Except.ok (Deck.mk d.cards d.character_class :: dt) = _
            rfl
    rw [show (⟨jds, r.keeps, r.random, r._moves⟩ : JsonDoc).decks = jds from rfl]
    rw [hexp r.decks jds hdwf hmap]
    show Except.ok (⟨r._moves, r.decks,
      if r.keeps.length = 0 then defaultKeeps else r.keeps, r.random⟩ : Replay) = _
    by_cases hke : r.keeps = []
    · rw [if_pos (by simp [hke]), if_pos hke]
    · rw [if_neg (by simpa using hke), if_neg hke]

/-! ## Keep bookkeeping of the directive loop (claims C8, C9) -/

/-- No directive other than `keep` touches the keep list. -/
theorem readDirective_keeps_invariant {r r' : Replay} {mv : Chars} {args : List Chars}
    (hne : ¬mv = strC "keep") (h : readDirective r mv args = .ok r') :
    r'.keeps = r.keeps := by
  unfold readDirective at h
  by_cases h1 : mv = strC "play"
  · rw [if_pos h1] at h
    repeat' split at h
    all_goals first | exact Except.noConfusion h | (rw [← Except.ok.inj h])
  rw [if_neg h1] at h
  by_cases h2 : mv = strC "summon"
  · rw [if_pos h2] at h
    repeat' split at h
    all_goals first | exact Except.noConfusion h | (rw [← Except.ok.inj h])
  rw [if_neg h2] at h
  by_cases h3 : mv = strC "attack"
  · rw [if_pos h3] at h
    repeat' split at h
    all_goals first | exact Except.noConfusion h | (rw [← Except.ok.inj h])
  rw [if_neg h3] at h
  by_cases h4 : mv = strC "power"
  · rw [if_pos h4] at h
    repeat' split at h
    all_goals first | exact Except.noConfusion h | (rw [← Except.ok.inj h])
  rw [if_neg h4] at h
  by_cases h5 : mv = strC "end"
  · rw [if_pos h5] at h
    rw [← Except.ok.inj h]
  rw [if_neg h5] at h
  by_cases h6 : mv = strC "start"
  · rw [if_pos h6] at h
    rw [← Except.ok.inj h]
  rw [if_neg h6] at h
  by_cases h7 : mv = strC "random"
  · rw [if_pos h7] at h
    repeat' split at h
    all_goals first | exact Except.noConfusion h | (rw [← Except.ok.inj h])
  rw [if_neg h7] at h
  by_cases h8 : mv = strC "deck"
  · rw [if_pos h8] at h
    repeat' split at h
    all_goals first | exact Except.noConfusion h | (rw [← Except.ok.inj h])
  rw [if_neg h8, if_neg hne] at h
  by_cases h9 : mv = strC "concede"
  · rw [if_pos h9] at h
    rw [← Except.ok.inj h]
  rw [if_neg h9] at h
  rw [← Except.ok.inj h]

/-- The `keep` directive appends exactly its parsed list. -/
theorem readDirective_keep_step {r r' : Replay} {args : List Chars}
    (h : readDirective r (strC "keep") args = .ok r') :
    ∃ ks, args.mapM charsToInt? = some ks ∧ r'.keeps = r.keeps ++ [ks] := by
  unfold readDirective at h
  rw [if_neg (by decide), if_neg (by decide), if_neg (by decide), if_neg (by decide),
    if_neg (by decide), if_neg (by decide), if_neg (by decide), if_neg (by decide),
    if_pos rfl] at h
  split at h
  · exact Except.noConfusion h
  · split at h
    · exact Except.noConfusion h
    · rename_i ks hks
      injection h with h2
      subst h2
      exact ⟨ks, hks, rfl⟩

/-- One accepted line contributes exactly its keep directive (if any). -/
theorem readStep_keeps {r r' : Replay} {l : Chars} (h : readStep r l = .ok r') :
    r'.keeps = r.keeps ++ (keepDir l).toList := by
  unfold readStep at h
  cases hp : parseLine l with
  | none =>
    rw [hp] at h
    exact Except.noConfusion h
  | some p =>
    obtain ⟨mv, args⟩ := p
    rw [hp] at h
    have h' : readDirective r mv args = .ok r' := h
    by_cases hkeep : mv = strC "keep"
    · subst hkeep
      obtain ⟨ks, hks, hkeq⟩ := readDirective_keep_step h'
      have hkd : keepDir l = some ks := by
        unfold keepDir
        rw [hp]
        show (if (strC "keep" : Chars) = strC "keep" then args.mapM charsToInt? else none)
          = some ks
        rw [if_pos rfl, hks]
      rw [hkeq, hkd]
      rfl
    · have hkd : keepDir l = none := by
        unfold keepDir
        rw [hp]
        show (if mv = strC "keep" then args.mapM charsToInt? else none) = none
        rw [if_neg hkeep]
      rw [readDirective_keeps_invariant hkeep h', hkd]
      simp

/-- `keepDirs` distributes over `cons` as the filter of its head. -/
theorem keepDirs_cons (l : Chars) (ls : List Chars) :
    keepDirs (l :: ls) = (keepDir l).toList ++ keepDirs ls := by
  unfold keepDirs
  rw [List.filterMap_cons]
  cases keepDir l with
  | none => rfl
  | some k => rfl

/-- An accepted directive loop accumulates exactly the keep directives. -/
theorem readAux_keepDirs :
    ∀ (lines : List Chars) (r0 r : Replay), readAux lines r0 = .ok r →
      r.keeps = r0.keeps ++ keepDirs lines := by
  intro lines
  induction lines with
  | nil =>
    intro r0 r h
    have : r0 = r := Except.ok.inj h
    subst this
    simp [keepDirs]
  | cons l ls ih =>
    intro r0 r h
    rw [readAux_cons] at h
    cases hs : readStep r0 l with
    | error e =>
      rw [hs] at h
      exact Except.noConfusion h
    | ok r1 =>
      rw [hs] at h
      have h' : readAux ls r1 = .ok r := h
      rw [keepDirs_cons, ih r1 r h', readStep_keeps hs, List.append_assoc]

/-! ## Cardinality of deck and keep directives (claim C8) -/

/-- Evaluation of the sample deck directive from any state. -/
theorem readStep_deckDirective (r : Replay) :
    readStep r deckDirective =
      if r.decks.length > 1 then .error .maxDecks
      else .ok { r with
        decks := r.decks ++ [⟨List.replicate 30 (strC "Fireball"), strC "MAGE"⟩] } := by
  have hp : parseLine deckDirective = some (strC "deck", [strC "MAGE", strC "Fireball"]) := by
    rfl
  rw [readStep_parse r hp]
  by_cases hl : r.decks.length > 1
  · rw [readDirective_deck_full r _ hl, if_pos hl]
  · rw [readDirective_deck r (strC "MAGE") [strC "Fireball"] (by omega) (by simp), if_neg hl]
    rfl

/-- Evaluation of the sample keep directive from any state. -/
theorem readStep_keepDirective (r : Replay) :
    readStep r keepDirective =
      if r.keeps.length > 1 then .error .maxKeeps
      else .ok { r with keeps := r.keeps ++ [[0]] } := by
  have hp : parseLine keepDirective = some (strC "keep", [strC "0"]) := by rfl
  rw [readStep_parse r hp]
  by_cases hl : r.keeps.length > 1
  · rw [readDirective_keep_full r _ hl, if_pos hl]
  · rw [show [strC "0"] = ([0] : List Int).map intToChars from rfl,
      readDirective_keep r [0] (by omega), if_neg hl]

/-- Cardinality invariant of the loop over deck/keep sources: the loop
accepts exactly when at most two of each directive remain permitted. -/
theorem readAux_cardinality :
    ∀ (lines : List Chars) (r : Replay),
      (∀ l ∈ lines, l = deckDirective ∨ l = keepDirective) →
      r.decks.length ≤ 2 → r.keeps.length ≤ 2 →
      ((∃ r', readAux lines r = .ok r') ↔
        r.decks.length + lines.count deckDirective ≤ 2 ∧
        r.keeps.length + lines.count keepDirective ≤ 2) := by
  intro lines
  induction lines with
  | nil =>
    intro r _ hd hk
    simp only [List.count_nil]
    constructor
    · intro _
      omega
    · intro _
      exact ⟨r, rfl⟩
  | cons l ls ih =>
    intro r hmem hd hk
    have hcnt_ne : deckDirective ≠ keepDirective := by decide
    rcases hmem l (List.mem_cons_self l ls) with rfl | rfl
    · by_cases hl : r.decks.length > 1
      · have hnone : ∀ r', readAux (deckDirective :: ls) r ≠ .ok r' := by
          intro r' hok
          rw [readAux_cons, readStep_deckDirective, if_pos hl] at hok
          exact Except.noConfusion hok
        constructor
        · intro ⟨r', hr'⟩
          exact absurd hr' (hnone r')
        · intro ⟨h1, h2⟩
          rw [List.count_cons_self] at h1
          omega
      · have hstep : readAux (deckDirective :: ls) r =
            readAux ls { r with
              decks := r.decks ++ [⟨List.replicate 30 (strC "Fireball"), strC "MAGE"⟩] } := by
          rw [readAux_cons, readStep_deckDirective, if_neg hl]
        rw [hstep,
          ih _ (fun x hx => hmem x (List.mem_cons_of_mem _ hx)) (by simp; omega) (by simp; omega)]
        rw [List.count_cons_self, List.count_cons_of_ne (by decide)]
        simp only [List.length_append, List.length_cons, List.length_nil]
        constructor
        · intro ⟨h1, h2⟩
          constructor <;> [skip; skip] <;> omega
        · intro ⟨h1, h2⟩
          constructor <;> omega
    · by_cases hl : r.keeps.length > 1
      · have hnone : ∀ r', readAux (keepDirective :: ls) r ≠ .ok r' := by
          intro r' hok
          rw [readAux_cons, readStep_keepDirective, if_pos hl] at hok
          exact Except.noConfusion hok
        constructor
        · intro ⟨r', hr'⟩
          exact absurd hr' (hnone r')
        · intro ⟨h1, h2⟩
          rw [List.count_cons_self] at h2
          omega
      · have hstep : readAux (keepDirective :: ls) r =
            readAux ls { r with keeps := r.keeps ++ [[0]] } := by
          rw [readAux_cons, readStep_keepDirective, if_neg hl]
        rw [hstep,
          ih _ (fun x hx => hmem x (List.mem_cons_of_mem _ hx)) (by simp; omega) (by simp; omega)]
        rw [List.count_cons_self, List.count_cons_of_ne (by decide)]
        simp only [List.length_append, List.length_cons, List.length_nil]
        constructor
        · intro ⟨h1, h2⟩
          constructor <;> omega
        · intro ⟨h1, h2⟩
          constructor <;> omega

/-! ## The pre-game random line condition (claim C5) -/

/-- The `found_random` scan is false exactly on all-zero draw data. -/
theorem foundRandom_false_iff (r : Replay) : foundRandom r = false ↔ allDrawsZero r := by
  unfold foundRandom allDrawsZero
  by_cases h : r.random.count (RDraw.num 0) = r.random.length
  · rw [if_pos h]
    constructor
    · intro hany
      rw [List.any_eq_false] at hany
      constructor
      · intro d hd
        exact (List.count_eq_length.mp h d hd).symm
      · intro m hm d hd
        have := hany m hm
        simp only [decide_not, Bool.not_eq_true', Bool.not_eq_false] at this
        have hc : m.random_numbers.count (RDraw.num 0) = m.random_numbers.length :=
          of_decide_eq_true this
        exact (List.count_eq_length.mp hc d hd).symm
    · intro ⟨_, hmoves⟩
      rw [List.any_eq_false]
      intro m hm
      have hc : m.random_numbers.count (RDraw.num 0) = m.random_numbers.length :=
        List.count_eq_length.mpr (fun d hd => (hmoves m hm d hd).symm)
      simp [hc]
  · rw [if_neg h]
    constructor
    · intro hfalse
      exact absurd hfalse (by decide)
    · intro ⟨hrand, _⟩
      exact absurd (List.count_eq_length.mpr (fun d hd => (hrand d hd).symm)) h

/-- Every written deck line exists for a well-formed deck list. -/
theorem mapM_isSome {β : Type} (f : Deck → Option β) :
    ∀ ds : List Deck, (∀ d ∈ ds, (f d).isSome = true) → ∃ ls, ds.mapM f = some ls := by
  intro ds
  induction ds with
  | nil => exact fun _ => ⟨[], rfl⟩
  | cons d dt ih =>
    intro h
    obtain ⟨ls, hls⟩ := ih (fun x hx => h x (List.mem_cons_of_mem _ hx))
    cases hf : f d with
    | none =>
      have := h d (List.mem_cons_self d dt)
      rw [hf] at this
      exact absurd this (by simp)
    | some b =>
      refine ⟨b :: ls, ?_⟩
      rw [List.mapM_cons, hf, hls]
      rfl

/-! ## The claims -/

/-- Claim C1, counterexample, two recorded-to-completion replays on which
the compact round trip fails as claimed.  First, for `allZeroReplay`
(pre-game coin flip `0`, one draw-free turn-end move) writing the compact
format and reading it back yields an empty pre-game random list, not the
recorded `[0]` — `write` emits `random()` because every recorded draw is
zero, and `read` then appends nothing.  Second, for `emptyKeepReplay`
(player one kept zero cards at the mulligan) the read-back does not
reproduce the keep sets at all: `write` emits `keep()` for the empty
selection and `read` raises `ValueError` on `int('')` (lines 194/342). -/
theorem counterexample_C1 :
    (writeCompact allZeroReplay).map (fun ls => (readLines ls).map Replay.random) =
      some (.ok []) ∧
    allZeroReplay.random = [RDraw.num 0] ∧ ([] : List RDraw) ≠ [RDraw.num 0] ∧
    (writeCompact emptyKeepReplay).map readLines = some (.error .valueError) ∧
    emptyKeepReplay.keeps = [[], [0, 1, 2, 3]] :=
  ⟨rfl, rfl, by decide, rfl, rfl⟩

/-- Claim C1 (amended): for every Replay recorded to completion that the
compact wire can carry — decks compress (see C2/C3), every recorded keep
selection is nonempty (a kept-nothing mulligan writes `keep()`, which
`read` rejects with `ValueError` on `int('')`, see `counterexample_C1`),
pre-game draws are plain integers, per-move numeric draws are
non-negative (a negative draw would be re-read as a character reference)
and names/reference strings are wire-clean — reading back what
`write`/`write_json` produced yields a Replay with the same move sequence
(per-move draws included), the same decks after expansion, the same keep
sets (with the default substituted if the keep list is empty), and the
same pre-game random list through the structured format always — through
the compact format exactly when some recorded draw is nonzero, the list
coming back empty when every recorded draw is zero.  `wellRecordedB`
states exactly these wire conditions. -/
theorem claim_C1 (r : Replay) (h : wellRecordedB r = true) :
    ∃ ls doc r1 r2,
      writeCompact r = some ls ∧ readLines ls = .ok r1 ∧
      writeJson r = some doc ∧ readJson doc = .ok r2 ∧
      r1._moves = r._moves ∧ r1.decks = r.decks ∧
      r1.keeps = (if r.keeps = [] then defaultKeeps else r.keeps) ∧
      r1.random = (if foundRandom r then r.random else []) ∧
      r2._moves = r._moves ∧ r2.decks = r.decks ∧
      r2.keeps = (if r.keeps = [] then defaultKeeps else r.keeps) ∧
      r2.random = r.random := by
  obtain ⟨hd2, hdwf, hk2, hkne, hnum, hmwf⟩ := wellRecordedB_spec h
  have hshort : ∀ d ∈ r.decks, (shorten_deck d.cards).isSome = true := by
    intro d hd
    have := hdwf d hd
    unfold wfDeckB at this
    rw [Bool.and_eq_true, Bool.and_eq_true, Bool.and_eq_true] at this
    exact this.1.1.2
  have hdl : ∀ d ∈ r.decks, (deckLine d).isSome = true := by
    intro d hd
    have := hshort d hd
    unfold deckLine
    cases hs : shorten_deck d.cards with
    | none =>
      rw [hs] at this
      exact absurd this (by simp)
    | some pat => simp [hs]
  obtain ⟨dls, hdls⟩ := mapM_isSome deckLine r.decks hdl
  have hwc : writeCompact r = some (dls ++ randomHeaderLine r ::
      (r.keeps.map keepLine ++ (r._moves.map moveLines).flatten)) := by
    unfold writeCompact
    rw [hdls]
    rfl
  have hjl : ∀ d ∈ r.decks, ((shorten_deck d.cards).map
      (fun pat => JsonDeck.mk pat (CHARACTER_CLASS_to_str d.character_class))).isSome = true := by
    intro d hd
    have := hshort d hd
    cases hs : shorten_deck d.cards with
    | none =>
      rw [hs] at this
      exact absurd this (by simp)
    | some pat => simp [hs]
  obtain ⟨jds, hjds⟩ := mapM_isSome _ r.decks hjl
  have hwj : writeJson r = some ⟨jds, r.keeps, r.random, r._moves⟩ := by
    unfold writeJson
    rw [hjds]
    rfl
  exact ⟨_, _, _, _, hwc, readLines_writeCompact h hwc, hwj, readJson_writeJson hdwf hwj,
    rfl, rfl, rfl, rfl, rfl, rfl, rfl, rfl⟩

/-- Concrete instance of the amended C1: `sampleReplay` (all move variants,
character draws, a nonzero pre-game draw) is well recorded and round-trips
through both formats. -/
theorem claim_C1_witness :
    wellRecordedB sampleReplay = true ∧
    (∃ ls doc r1 r2,
      writeCompact sampleReplay = some ls ∧ readLines ls = .ok r1 ∧
      writeJson sampleReplay = some doc ∧ readJson doc = .ok r2 ∧
      r1._moves = sampleReplay._moves ∧ r1.decks = sampleReplay.decks ∧
      r1.keeps = (if sampleReplay.keeps = [] then defaultKeeps else sampleReplay.keeps) ∧
      r1.random = (if foundRandom sampleReplay then sampleReplay.random else []) ∧
      r2._moves = sampleReplay._moves ∧ r2.decks = sampleReplay.decks ∧
      r2.keeps = (if sampleReplay.keeps = [] then defaultKeeps else sampleReplay.keeps) ∧
      r2.random = sampleReplay.random) :=
  ⟨by decide, claim_C1 sampleReplay (by decide)⟩

/-- Claim C2: for the valid 30-card deck `aperiodicDeck1` (28 copies of A,
then B, C) `__shorten_deck` finds no pattern of length at most 14 and
falls off its loop returning `None`, so `expand(compress(d))` is not `d`
— Python `write` crashes iterating `None`; the spec's round-trip law
`expand(compress(d)) == d` is the intent and the missing fallback a slip. -/
theorem claim_C2 :
    aperiodicDeck1.length = 30 ∧
    (shorten_deck aperiodicDeck1).map expandPattern = none ∧
    (shorten_deck aperiodicDeck1).map expandPattern ≠ some aperiodicDeck1 := by
  have h1 : (shorten_deck aperiodicDeck1).map expandPattern = none := rfl
  exact ⟨rfl, h1, by rw [h1]; exact fun hc => Option.noConfusion hc⟩

/-- Claim C3: on the valid 30-card deck `aperiodicDeck2` (29 copies of A,
one B) no pattern length in 1..14 matches and `__shorten_deck` returns
`None` rather than the full 30-element sequence the claim (and the spec's
`k = 30` trivial-match reading) prescribes. -/
theorem claim_C3 :
    aperiodicDeck2.length = 30 ∧ shorten_deck aperiodicDeck2 = none :=
  ⟨rfl, rfl⟩

/-- Claim C4, counterexample: parsing the §8 scenario input yields a
`PlayMove` whose target is the SECOND argument `"0"` and no board index —
the third argument `"2"` is ignored by `read`'s `play` branch — not the
claimed `PlayMove(boardIndex=0, target=2)`. -/
theorem counterexample_C4 :
    (readLines c4Input).map Replay._moves = .ok c4Result._moves ∧
    c4Result._moves ≠ c4ClaimedMoves :=
  ⟨rfl, by decide⟩

/-- Claim C4 (amended): the compact input
`deck(MAGE,Fireball) random(0) keep(0,1,2) keep(0,1,2,3) play(Fireball,0,2)
end()` parses to a Replay with one Deck of class MAGE holding 30
Fireballs by pattern expansion, pre-game random list `[0]`, keep sets
`[0,1,2]` and `[0,1,2,3]`, and moves `[PlayMove(card "Fireball", no board
index, target "0" — the third argument is dropped), TurnEndMove]`. -/
theorem claim_C4 : readLines c4Input = .ok c4Result := rfl

/-- Claim C5: the pre-game `random(...)` line of `write` has empty content
when every pre-game draw is zero and every move's random-draw sub-sequence
contains only zeros, and otherwise carries the full pre-game draw list in
recorded order. -/
theorem claim_C5 (r : Replay) :
    (allDrawsZero r → randomHeaderLine r = mkLine (strC "random") [[]]) ∧
    (¬allDrawsZero r →
      randomHeaderLine r = mkLine (strC "random") (argsOfList (r.random.map drawToChars))) := by
  constructor
  · intro hz
    have hf : foundRandom r = false := (foundRandom_false_iff r).mpr hz
    unfold randomHeaderLine
    rw [if_neg (by simp [hf])]
  · intro hnz
    have hf : foundRandom r = true := by
      by_contra hfb
      rw [Bool.not_eq_true, foundRandom_false_iff] at hfb
      exact hnz hfb
    unfold randomHeaderLine
    rw [if_pos hf]

/-- Concrete instance of C5: the all-zero recording emits `random()`. -/
theorem claim_C5_witness :
    randomHeaderLine allZeroReplay = mkLine (strC "random") [[]] :=
  (claim_C5 allZeroReplay).1 ⟨by decide, by decide⟩

/-- Claim C6: the recorder's `_generate_random_between` wrapper returns the
underlying generator's result unchanged, and `_record_random` appends the
draw to the most recently appended move's sub-sequence when a move
exists — touching nothing else — and to the pre-game list otherwise. -/
theorem claim_C6 (r : Replay) (result : RDraw) (rng : Int → Int → Int)
    (lowest highest : Int) (pre : List MoveRec) (lastm : MoveRec) :
    (r._moves = pre ++ [lastm] →
      recordRandom r result =
        { r with _moves := pre ++ [⟨lastm.kind, lastm.random_numbers ++ [result]⟩] }) ∧
    (r._moves = [] → recordRandom r result = { r with random := r.random ++ [result] }) ∧
    record_generate_random_between rng lowest highest r =
      (rng lowest highest, recordRandom r (.num (rng lowest highest))) := by
  refine ⟨?_, ?_, rfl⟩
  · intro hm
    unfold recordRandom
    rw [if_pos (by rw [hm]; simp), hm, updateLast_append_singleton]
  · intro hm
    unfold recordRandom
    rw [if_neg (by rw [hm]; simp)]

/-- Concrete instance of C6: a draw recorded after a turn-end move lands on
that move. -/
theorem claim_C6_witness :
    recordRandom ⟨[⟨.turnEnd, []⟩], [], [], []⟩ (.num 5) =
      { (⟨[⟨.turnEnd, []⟩], [], [], []⟩ : Replay) with
        _moves := [] ++ [⟨MoveKind.turnEnd, [] ++ [.num 5]⟩] } ∧
    record_generate_random_between (fun a b => a + b) 2 3 ⟨[], [], [], []⟩ =
      (5, recordRandom ⟨[], [], [], []⟩ (.num 5)) :=
  ⟨(claim_C6 _ (.num 5) (fun a b => a + b) 2 3 [] ⟨.turnEnd, []⟩).1 rfl,
    (claim_C6 ⟨[], [], [], []⟩ (.num 5) (fun a b => a + b) 2 3 [] ⟨.turnEnd, []⟩).2.2⟩

/-- Claim C7: `RecordingAgent.choose_option` does NOT forward the call
unchanged — line 382 passes the whole varargs tuple as one positional
argument, so an underlying agent that answers with the first of its
received options answers with the tuple `(0, 1)` itself; `options.index`
then raises `ValueError` (and recording would in any case die on the
nonexistent attribute `self.moves`, line 98).  A transparent forward
would have returned `atom 0`. -/
theorem claim_C7 :
    RecordingAgent_choose_option (fun args => args.headD (.atom 99)) emptyReplay
      [.atom 0, .atom 1] = .error .valueError ∧
    ((fun args => args.headD (PyVal.atom 99)) : List PyVal → PyVal)
      [PyVal.atom 0, PyVal.atom 1] = PyVal.atom 0 :=
  ⟨rfl, rfl⟩

/-- Claim C8: over sources made of valid deck/keep directive lines, the
compact reader accepts exactly when at most two `deck(...)` and at most
two `keep(...)` directives occur; a third of either kind raises the
cardinality error, which aborts the loop. -/
theorem claim_C8 (lines : List Chars)
    (h : ∀ l ∈ lines, l = deckDirective ∨ l = keepDirective) :
    (∃ r, readLines lines = .ok r) ↔
      lines.count deckDirective ≤ 2 ∧ lines.count keepDirective ≤ 2 := by
  have hiff := readAux_cardinality lines emptyReplay h (by decide) (by decide)
  unfold readLines
  constructor
  · intro hex
    obtain ⟨r, hr⟩ := hex
    have hok : ∃ r', readAux lines emptyReplay = .ok r' := by
      cases hx : readAux lines emptyReplay with
      | ok r' => exact ⟨r', rfl⟩
      | error e =>
        rw [hx] at hr
        exact Except.noConfusion hr
    have := hiff.mp hok
    simpa [emptyReplay] using this
  · intro hcnt
    obtain ⟨r', hr'⟩ := hiff.mpr (by simpa [emptyReplay] using hcnt)
    refine ⟨if r'.keeps.length = 0 then { r' with keeps := defaultKeeps } else r', ?_⟩
    rw [hr']
    rfl

/-- Concrete instances of C8: three deck lines are rejected, two of each
are accepted. -/
theorem claim_C8_witness :
    (¬∃ r, readLines [deckDirective, deckDirective, deckDirective] = .ok r) ∧
    (∃ r, readLines [deckDirective, deckDirective, keepDirective, keepDirective] = .ok r) := by
  constructor
  · intro hex
    have := (claim_C8 _ (by decide)).mp hex
    revert this
    decide
  · exact (claim_C8 _ (by decide)).mpr (by decide)

/-- Claim C9: a source (compact or structured) with zero keep directives
yields the default keep sets `[0,1,2]` and `[0,1,2,3]`; when keep
directives are present they are taken as given with no substitution. -/
theorem claim_C9 (lines : List Chars) (r : Replay) (doc : JsonDoc) (rj : Replay)
    (h1 : readLines lines = .ok r) (h2 : readJson doc = .ok rj) :
    r.keeps = (if keepDirs lines = [] then defaultKeeps else keepDirs lines) ∧
    rj.keeps = (if doc.keep = [] then defaultKeeps else doc.keep) := by
  constructor
  · unfold readLines at h1
    cases hx : readAux lines emptyReplay with
    | error e =>
      rw [hx] at h1
      exact Except.noConfusion h1
    | ok r0 =>
      rw [hx] at h1
      have hkd : r0.keeps = keepDirs lines := by
        have := readAux_keepDirs lines emptyReplay r0 hx
        simpa [emptyReplay] using this
      have hr : (if r0.keeps.length = 0 then { r0 with keeps := defaultKeeps } else r0) = r :=
        Except.ok.inj h1
      rw [← hr]
      by_cases hke : keepDirs lines = []
      · rw [if_pos (by simp [hkd, hke]), if_pos hke]
      · rw [if_neg (by simp [hkd, hke]), if_neg hke, hkd]
  · unfold readJson at h2
    cases hx : doc.decks.mapM (fun d =>
        if d.cards.length = 0 then Except.error PErr.zeroDivisionError
        else Except.ok (Deck.mk (expandPattern d.cards)
          (CHARACTER_CLASS_from_str d.cclass))) with
    | error e =>
      rw [hx] at h2
      exact Except.noConfusion h2
    | ok ds =>
      rw [hx] at h2
      have hj : (⟨doc.moves, ds,
          if doc.keep.length = 0 then defaultKeeps else doc.keep, doc.random⟩ : Replay) = rj :=
        Except.ok.inj h2
      rw [← hj]
      by_cases hke : doc.keep = []
      · rw [if_pos (by simp [hke]), if_pos hke]
      · rw [if_neg (by simp [hke]), if_neg hke]

/-- Concrete instances of C9: a keep-free compact source defaults, a
structured document with a keep list keeps it. -/
theorem claim_C9_witness :
    (⟨[], [⟨List.replicate 30 (strC "Fireball"), strC "MAGE"⟩], defaultKeeps, []⟩ :
        Replay).keeps =
      (if keepDirs [deckDirective] = [] then defaultKeeps else keepDirs [deckDirective]) ∧
    (⟨[], [], [[5]], []⟩ : Replay).keeps =
      (if (⟨[], [[5]], [], []⟩ : JsonDoc).keep = [] then defaultKeeps
        else (⟨[], [[5]], [], []⟩ : JsonDoc).keep) :=
  claim_C9 [deckDirective]
    ⟨[], [⟨List.replicate 30 (strC "Fireball"), strC "MAGE"⟩], defaultKeeps, []⟩
    ⟨[], [[5]], [], []⟩ ⟨[], [], [[5]], []⟩ rfl rfl

/-- Claim C10: during playback with an empty pre-game random list, every
bounded numeric draw returns `0` whatever the requested bounds, the
per-move draws, or the cursor position, and the cursor does not advance. -/
theorem claim_C10 (replay : Replay) (st : PlaybackState) (lowest highest : Int)
    (h : replay.random = []) :
    playback_generate_random_between replay st lowest highest = .ok (.num 0, st) := by
  unfold playback_generate_random_between
  rw [if_pos (by simp [h])]

/-- Concrete instance of C10: a replay whose only move has a recorded draw
still yields `0`, cursor untouched. -/
theorem claim_C10_witness :
    playback_generate_random_between ⟨[⟨.turnEnd, [.num 7]⟩], [], [], []⟩ ⟨3, 4⟩ 1 6 =
      .ok (.num 0, ⟨3, 4⟩) :=
  claim_C10 _ _ 1 6 rfl
